import Mathlib

/-!
Verification of the solxact transaction assembly and serialization engine.

This file gives a shallow embedding, in Lean 4, of the core of the `solxact`
command-line tool (files `src/main.rs` and `src/transaction.rs`):

* the transaction model: the four-partition address table with promotion
  semantics, signature slots, recent blockhash and instruction list;
* the wire codec: `Transaction::encode` / `Transaction::decode` /
  `Transaction::message` and the compact-u16 short-vector integer codec;
* the data-value language (`DataValue`) and its four encoding dialects
  (varint bincode, fixint bincode, borsh, C layout), including vector
  normalization and PDA derivation (with the SHA-256 hash and the
  curve25519 point test kept abstract, since they come from external
  libraries).

Machine integers are modelled as `Nat` / `Int` with explicit `% 2^w`
truncation where the Rust code performs an `as` cast; byte strings are
lists over `Fin 256`; fallible Rust functions returning `Result` are
modelled with `Except`.  Rust panics (`.unwrap()` on `None`) are
distinguished from ordinary `Err` returns by a dedicated error kind.

The theorems at the end of the file settle the frozen claims C1..C10.
-/

/-- A byte, as stored in a Rust `u8` / `Vec<u8>`. -/
abbrev Byte := Fin 256

/-- A fixed-length byte string, as stored in a Rust `[u8; n]`.
`BVec 32` models `Pubkey` / `Address` / `Sha256Digest` (all of which are
`pub [u8; 32]` newtypes compared by raw bytes, freely converted into one
another by the source), and `BVec 64` models the 64 bytes of an
`ed25519_dalek::Signature` (per the spec's data model a signature is 64
raw bytes; the all-zero value is the reserved *absent* sentinel). -/
def BVec (n : Nat) := { l : List Byte // l.length = n }

instance (n : Nat) : DecidableEq (BVec n) := fun a b =>
  decidable_of_iff (a.val = b.val) Subtype.ext_iff.symm

/-- The all-zero 32-byte value: `EMPTY_RECENT_BLOCKHASH` in the source. -/
def EMPTY_RECENT_BLOCKHASH : BVec 32 := ⟨List.replicate 32 0, by simp⟩

/-- The all-zero 64-byte value: `EMPTY_SIGNATURE_BYTES` in the source. -/
def EMPTY_SIGNATURE_BYTES : BVec 64 := ⟨List.replicate 64 0, by simp⟩

/-- `PubkeyWithSignature` from `transaction.rs`: a signed address together
with its optional signature slot. -/
structure PubkeyWithSignature where
  pubkey : BVec 32
  signature : Option (BVec 64)
deriving DecidableEq

/-- `Instruction` from `transaction.rs`: a program address, a list of
`(address, is_signed, is_read_write)` account references, and data bytes. -/
structure Instruction where
  program_address : BVec 32
  addresses : List (BVec 32 × Bool × Bool)
  data : List Byte
deriving DecidableEq

/-- `Transaction` from `transaction.rs`: the four address partitions, the
optional recent blockhash, and the instruction list. -/
structure Transaction where
  signed_read_write_addresses : List PubkeyWithSignature
  signed_read_only_addresses : List PubkeyWithSignature
  unsigned_read_write_addresses : List (BVec 32)
  unsigned_read_only_addresses : List (BVec 32)
  recent_blockhash : Option (BVec 32)
  instructions : List Instruction
deriving DecidableEq

/-- Rust's `Iterator::position`: index of the first element satisfying the
predicate. -/
def position (p : α → Bool) : List α → Option Nat
  | [] => none
  | x :: xs => if p x then some 0 else (position p xs).map (· + 1)

/-- `Transaction::new` from `transaction.rs`: an empty transaction holding
just the fee payer as its only signed read-write address. -/
def Transaction.new (fee_payer : BVec 32) : Transaction :=
  { signed_read_write_addresses := [{ pubkey := fee_payer, signature := none }]
    signed_read_only_addresses := []
    unsigned_read_write_addresses := []
    unsigned_read_only_addresses := []
    recent_blockhash := none
    instructions := [] }

/-- `Transaction::add_signature` from `transaction.rs`.  Mirrors the Rust
`if`/`else if` chains: note that in the `is_read_write` branch the
`unsigned_read_only_addresses` partition is never consulted. -/
def Transaction.add_signature (t : Transaction) (pubkey : BVec 32)
    (is_read_write : Bool) : Transaction :=
  if is_read_write then
    match position (fun x => x.pubkey == pubkey) t.signed_read_write_addresses with
    | some _ => t
    | none =>
      let t' :=
        match position (fun x => x.pubkey == pubkey) t.signed_read_only_addresses with
        | some pos =>
          { t with signed_read_only_addresses :=
              t.signed_read_only_addresses.eraseIdx pos }
        | none =>
          match position (fun x => x == pubkey) t.unsigned_read_write_addresses with
          | some pos =>
            { t with unsigned_read_write_addresses :=
                t.unsigned_read_write_addresses.eraseIdx pos }
          | none => t
      { t' with signed_read_write_addresses :=
          t'.signed_read_write_addresses ++ [{ pubkey := pubkey, signature := none }] }
  else
    match position (fun x => x.pubkey == pubkey) t.signed_read_write_addresses with
    | some _ => t
    | none =>
      match position (fun x => x.pubkey == pubkey) t.signed_read_only_addresses with
      | some _ => t
      | none =>
        match position (fun x => x == pubkey) t.unsigned_read_write_addresses with
        | some pos =>
          { t with
              unsigned_read_write_addresses := t.unsigned_read_write_addresses.eraseIdx pos,
              signed_read_write_addresses :=
                t.signed_read_write_addresses ++ [{ pubkey := pubkey, signature := none }] }
        | none =>
          let t' :=
            match position (fun x => x == pubkey) t.unsigned_read_only_addresses with
            | some pos =>
              { t with unsigned_read_only_addresses :=
                  t.unsigned_read_only_addresses.eraseIdx pos }
            | none => t
          { t' with signed_read_only_addresses :=
              t'.signed_read_only_addresses ++ [{ pubkey := pubkey, signature := none }] }

/-- `Transaction::add_address` from `transaction.rs`. -/
def Transaction.add_address (t : Transaction) (address : BVec 32)
    (is_read_write : Bool) : Transaction :=
  if is_read_write then
    match position (fun x => address == x.pubkey) t.signed_read_write_addresses with
    | some _ => t
    | none =>
      match position (fun x => address == x.pubkey) t.signed_read_only_addresses with
      | some pos =>
        { t with
            signed_read_only_addresses := t.signed_read_only_addresses.eraseIdx pos,
            signed_read_write_addresses :=
              t.signed_read_write_addresses ++ [{ pubkey := address, signature := none }] }
      | none =>
        match position (fun x => address == x) t.unsigned_read_write_addresses with
        | some _ => t
        | none =>
          let t' :=
            match position (fun x => address == x) t.unsigned_read_only_addresses with
            | some pos =>
              { t with unsigned_read_only_addresses :=
                  t.unsigned_read_only_addresses.eraseIdx pos }
            | none => t
          { t' with unsigned_read_write_addresses :=
              t'.unsigned_read_write_addresses ++ [address] }
  else
    match position (fun x => address == x.pubkey) t.signed_read_write_addresses with
    | some _ => t
    | none =>
      match position (fun x => address == x.pubkey) t.signed_read_only_addresses with
      | some _ => t
      | none =>
        match position (fun x => address == x) t.unsigned_read_write_addresses with
        | some _ => t
        | none =>
          match position (fun x => address == x) t.unsigned_read_only_addresses with
          | some _ => t
          | none =>
            { t with unsigned_read_only_addresses :=
                t.unsigned_read_only_addresses ++ [address] }

/-- `Transaction::add_instruction` from `transaction.rs`: inserts the program
address as unsigned read-only, each referenced account through
`add_signature`/`add_address` according to its flags, and appends the
instruction. -/
def Transaction.add_instruction (t : Transaction) (instruction : Instruction) :
    Transaction :=
  let t1 := t.add_address instruction.program_address false
  let t2 := instruction.addresses.foldl
    (fun acc e =>
      if e.2.1 then acc.add_signature e.1 e.2.2 else acc.add_address e.1 e.2.2) t1
  { t2 with instructions := t2.instructions ++ [instruction] }

/-- `Transaction::set_recent_blockhash` from `transaction.rs`: installs the
blockhash and clears every signature slot when the value differs from the
current one; does nothing when it is equal. -/
def Transaction.set_recent_blockhash (t : Transaction)
    (recent_blockhash : BVec 32) : Transaction :=
  if some recent_blockhash = t.recent_blockhash then t
  else
    { t with
        recent_blockhash := some recent_blockhash,
        signed_read_write_addresses :=
          t.signed_read_write_addresses.map (fun s => { s with signature := none }),
        signed_read_only_addresses :=
          t.signed_read_only_addresses.map (fun s => { s with signature := none }) }

/-- `Transaction::sign` from `transaction.rs`: sets the signature slot of
every signed address whose pubkey equals the argument.  (The Rust function
returns `Result` but never errs, so it is modelled as a pure function.) -/
def Transaction.sign (t : Transaction) (pubkey : BVec 32) (signature : BVec 64) :
    Transaction :=
  { t with
      signed_read_write_addresses := t.signed_read_write_addresses.map
        (fun s => if s.pubkey = pubkey then { s with signature := some signature } else s)
      signed_read_only_addresses := t.signed_read_only_addresses.map
        (fun s => if s.pubkey = pubkey then { s with signature := some signature } else s) }

/-! ## Wire codec (`transaction.rs`) -/

/-- `MAXIMUM_ED25519_SIGNATURES_COUNT` from `transaction.rs`. -/
def MAXIMUM_ED25519_SIGNATURES_COUNT : Nat := 18

/-- `MAXIMUM_ADDRESSES_COUNT` from `transaction.rs`. -/
def MAXIMUM_ADDRESSES_COUNT : Nat := 37

/-- `MAXIMUM_INSTRUCTION_ADDRESS_INDEX_COUNT` from `transaction.rs`. -/
def MAXIMUM_INSTRUCTION_ADDRESS_INDEX_COUNT : Nat := 1190

/-- `MAXIMUM_INSTRUCTION_DATA_COUNT` from `transaction.rs`. -/
def MAXIMUM_INSTRUCTION_DATA_COUNT : Nat := 1192

/-- `Transaction::encode_compact_u16` from `transaction.rs`.  The Rust
argument is a `u16`; every call site casts with `as u16` first, modelled
as `% 65536`.  Bit operations on `u16` are written arithmetically:
`x & 0x7F` is `x % 128`, `x | 0x80` on a 7-bit value is `x + 128`,
`x >> 7` is `x / 128`, and the final `as u8` cast is `% 256`. -/
def encode_compact_u16 (u : Nat) : List Byte :=
  if u > 0x7F then
    let b0 : Byte := ⟨u % 128 + 128, by omega⟩
    let u1 := u / 128
    if u1 > 0x7F then
      [b0, ⟨u1 % 128 + 128, by omega⟩, ⟨u1 / 128 % 256, Nat.mod_lt _ (by omega)⟩]
    else
      [b0, ⟨u1 % 128, by omega⟩]
  else
    [⟨u % 128, by omega⟩]

/-- `Transaction::read` / `read_exact` of a single byte: the next byte of
the stream, or an end-of-input error. -/
def read1 (s : List Byte) : Except String (Byte × List Byte) :=
  match s with
  | [] => .error "failed to fill whole buffer"
  | b :: rest => .ok (b, rest)

/-- `read_exact` into an `n`-byte buffer: the next `n` bytes of the stream,
or an end-of-input error. -/
def readBVec (n : Nat) (s : List Byte) : Except String (BVec n × List Byte) :=
  if h : n ≤ s.length then
    .ok (⟨s.take n, by simp [List.length_take]; omega⟩, s.drop n)
  else .error "failed to fill whole buffer"

/-- `read_exact` into a `Vec<u8>` of length `n` (used for instruction data). -/
def readBytes (n : Nat) (s : List Byte) : Except String (List Byte × List Byte) :=
  if n ≤ s.length then .ok (s.take n, s.drop n)
  else .error "failed to fill whole buffer"

/-- `Transaction::decode_compact_u16` from `transaction.rs`.  All Rust
arithmetic is on `u16`: `b & !0x80` is `b % 128`, `|` of the disjoint
7-bit groups is `+`, `<< 7` and `<< 14` are `* 128` and `* 16384`, and the
`u16` wrap of `(buf[2] as u16) << 14` keeps only `buf[2] % 4`. -/
def decode_compact_u16 (s : List Byte) : Except String (Nat × List Byte) := do
  let (b0, s) ← read1 s
  if b0.val ≥ 0x80 then
    let (b1, s) ← read1 s
    if b1.val ≥ 0x80 then
      let (b2, s) ← read1 s
      .ok (b0.val % 128 + b1.val % 128 * 128 + b2.val % 4 * 16384, s)
    else
      .ok (b0.val % 128 + b1.val % 128 * 128, s)
  else
    .ok (b0.val, s)

/-- `Transaction::find_address_index` from `transaction.rs`: 0-based position
of the address in the partition-order concatenation, searched by raw-byte
equality irrespective of permissions.  The Rust function returns
`Option<u8>`; the `as u8` casts are modelled as `% 256`. -/
def Transaction.find_address_index (t : Transaction) (address : BVec 32) :
    Option Byte :=
  match position (fun s => address == s.pubkey) t.signed_read_write_addresses with
  | some index => some ⟨index % 256, Nat.mod_lt _ (by omega)⟩
  | none =>
  let offset := t.signed_read_write_addresses.length
  match position (fun s => address == s.pubkey) t.signed_read_only_addresses with
  | some index => some ⟨(index + offset) % 256, Nat.mod_lt _ (by omega)⟩
  | none =>
  let offset := offset + t.signed_read_only_addresses.length
  match position (fun a => address == a) t.unsigned_read_write_addresses with
  | some index => some ⟨(index + offset) % 256, Nat.mod_lt _ (by omega)⟩
  | none =>
  let offset := offset + t.unsigned_read_write_addresses.length
  match position (fun a => address == a) t.unsigned_read_only_addresses with
  | some index => some ⟨(index + offset) % 256, Nat.mod_lt _ (by omega)⟩
  | none => none

/-- `Transaction::find_address_at_index` from `transaction.rs`: the address
at the given partition-order index together with its
`(is_signed, is_read_write)` partition flags. -/
def Transaction.find_address_at_index (t : Transaction) (index : Byte) :
    Option (BVec 32 × Bool × Bool) :=
  let u := index.val
  if h : u < t.signed_read_write_addresses.length then
    some ((t.signed_read_write_addresses.get ⟨u, h⟩).pubkey, true, true)
  else
    let u := u - t.signed_read_write_addresses.length
    if h : u < t.signed_read_only_addresses.length then
      some ((t.signed_read_only_addresses.get ⟨u, h⟩).pubkey, true, false)
    else
      let u := u - t.signed_read_only_addresses.length
      if h : u < t.unsigned_read_write_addresses.length then
        some (t.unsigned_read_write_addresses.get ⟨u, h⟩, false, true)
      else
        let u := u - t.unsigned_read_write_addresses.length
        if h : u < t.unsigned_read_only_addresses.length then
          some (t.unsigned_read_only_addresses.get ⟨u, h⟩, false, false)
        else none

/-- The per-instruction portion of `Transaction::message`: program index
byte, compact-u16 account-index count, one index byte per account,
compact-u16 data length (rejected above `MAXIMUM_INSTRUCTION_DATA_COUNT`),
then the raw data bytes.  (The Rust error strings interpolate the Base58
text of the missing address; the text is elided here.) -/
def Transaction.encode_instruction (t : Transaction) (instruction : Instruction) :
    Except String (List Byte) := do
  let pidx ← match t.find_address_index instruction.program_address with
    | some b => Except.ok b
    | none => Except.error "Invalid Transaction - program address not in address list"
  let aidx ← instruction.addresses.mapM (fun a =>
    match t.find_address_index a.1 with
    | some b => Except.ok b
    | none => Except.error "Invalid Transaction - address is not in address list")
  let data_len := instruction.data.length
  if data_len > MAXIMUM_INSTRUCTION_DATA_COUNT then
    Except.error "Instruction data len too long"
  else
    Except.ok ([pidx] ++ encode_compact_u16 (instruction.addresses.length % 65536)
      ++ aidx ++ encode_compact_u16 (data_len % 65536) ++ instruction.data)

/-- `Transaction::message` from `transaction.rs`: the signed message bytes.
Header bytes (`u8::try_from` errors for the two signed counts, a silent
`as u8` cast for the unsigned read-only count), compact-u16 total address
count (`as u16` cast), the addresses in partition order, the recent
blockhash (all-zero when unset), and the instructions. -/
def Transaction.message (t : Transaction) : Except String (List Byte) := do
  let nsig := t.signed_read_write_addresses.length + t.signed_read_only_addresses.length
  let b1 : Byte ← if h : nsig ≤ 255 then .ok ⟨nsig, by omega⟩
    else .error "Too many signed addresses"
  let b2 : Byte ← if h : t.signed_read_only_addresses.length ≤ 255 then
      .ok ⟨t.signed_read_only_addresses.length, by omega⟩
    else .error "Too many read only addresses"
  let b3 : Byte := ⟨t.unsigned_read_only_addresses.length % 256, Nat.mod_lt _ (by omega)⟩
  let recent := t.recent_blockhash.getD EMPTY_RECENT_BLOCKHASH
  if t.instructions.length > 65535 then .error "Too many instructions"
  else do
    let total := nsig + t.unsigned_read_write_addresses.length +
      t.unsigned_read_only_addresses.length
    let addr_bytes := (t.signed_read_write_addresses.map (·.pubkey) ++
      t.signed_read_only_addresses.map (·.pubkey) ++
      t.unsigned_read_write_addresses ++ t.unsigned_read_only_addresses).flatMap (·.val)
    let ibytes ← t.instructions.mapM t.encode_instruction
    .ok ([b1, b2, b3] ++ encode_compact_u16 (total % 65536) ++ addr_bytes ++
      recent.val ++ encode_compact_u16 (t.instructions.length % 65536) ++ ibytes.flatten)

/-- `Transaction::encode` from `transaction.rs`: compact-u16 signature count,
one 64-byte slot per signed address (`EMPTY_SIGNATURE_BYTES` when absent),
then the message bytes. -/
def Transaction.encode (t : Transaction) : Except String (List Byte) := do
  let total_signatures := t.signed_read_write_addresses.length +
    t.signed_read_only_addresses.length
  if total_signatures > 65535 then .error "Too many addresses"
  else do
    let sig_bytes := (t.signed_read_write_addresses ++
      t.signed_read_only_addresses).flatMap
      (fun p => (p.signature.getD EMPTY_SIGNATURE_BYTES).val)
    let msg ← t.message
    .ok (encode_compact_u16 (total_signatures % 65536) ++ sig_bytes ++ msg)

/-- The signature-reading loop of `Transaction::decode`: `n` 64-byte blocks;
an all-zero block is the *absent* sentinel (`None`).  The
`ed25519_dalek::Signature::from_bytes` call is modelled from the spec
(a signature is 64 raw bytes), so any non-sentinel block is accepted. -/
def Transaction.decode_signatures :
    Nat → List Byte → Except String (List (Option (BVec 64)) × List Byte)
  | 0, s => .ok ([], s)
  | n + 1, s => do
    let (buf, s) ← readBVec 64 s
    let (rest, s) ← Transaction.decode_signatures n s
    .ok ((if buf = EMPTY_SIGNATURE_BYTES then none else some buf) :: rest, s)

/-- `Transaction::decode_address` from `transaction.rs`: 32 raw bytes. -/
def Transaction.decode_address (s : List Byte) :
    Except String (BVec 32 × List Byte) :=
  readBVec 32 s

/-- `Transaction::decode_signature_from_header` from `transaction.rs`: a
32-byte address paired with the next signature from the iterator
(`None` when exhausted). -/
def Transaction.decode_signature_from_header
    (signatures : List (Option (BVec 64))) (s : List Byte) :
    Except String (PubkeyWithSignature × List (Option (BVec 64)) × List Byte) := do
  let (address, s) ← Transaction.decode_address s
  .ok ({ pubkey := address, signature := signatures.head?.getD none },
    signatures.tail, s)

/-- The signed-address reading loops of `Transaction::decode`: `n` calls to
`decode_signature_from_header`, threading the signature iterator. -/
def Transaction.decode_signed_addresses :
    Nat → List (Option (BVec 64)) → List Byte →
    Except String (List PubkeyWithSignature × List (Option (BVec 64)) × List Byte)
  | 0, sigs, s => .ok ([], sigs, s)
  | n + 1, sigs, s => do
    let (p, sigs, s) ← Transaction.decode_signature_from_header sigs s
    let (rest, sigs, s) ← Transaction.decode_signed_addresses n sigs s
    .ok (p :: rest, sigs, s)

/-- The unsigned-address reading loops of `Transaction::decode`: `n`
32-byte addresses. -/
def Transaction.decode_addresses :
    Nat → List Byte → Except String (List (BVec 32) × List Byte)
  | 0, s => .ok ([], s)
  | n + 1, s => do
    let (a, s) ← Transaction.decode_address s
    let (rest, s) ← Transaction.decode_addresses n s
    .ok (a :: rest, s)

/-- `Transaction::decode_recent_blockhash` from `transaction.rs`: 32 bytes,
with the all-zero value decoding to `None`. -/
def Transaction.decode_recent_blockhash (s : List Byte) :
    Except String (Option (BVec 32) × List Byte) := do
  let (buf, s) ← readBVec 32 s
  .ok (if buf = EMPTY_RECENT_BLOCKHASH then none else some buf, s)

/-- The instruction-address reading loop of `Transaction::decode`: `n` index
bytes resolved through `find_address_at_index` against the decoded address
table. -/
def Transaction.decode_instruction_addresses (ret : Transaction) (i : Nat) :
    Nat → List Byte → Except String (List (BVec 32 × Bool × Bool) × List Byte)
  | 0, s => .ok ([], s)
  | n + 1, s => do
    let (b, s) ← read1 s
    match ret.find_address_at_index b with
    | some a => do
      let (rest, s) ← Transaction.decode_instruction_addresses ret i n s
      .ok (a :: rest, s)
    | none =>
      .error ("Invalid address index " ++ toString b.val ++
        " referenced from instruction " ++ toString i)

/-- The per-instruction portion of `Transaction::decode` (instruction number
`i`): program index byte, compact-u16 account count (bounded by
`MAXIMUM_INSTRUCTION_ADDRESS_INDEX_COUNT`), the account index bytes,
compact-u16 data count (bounded by `MAXIMUM_INSTRUCTION_DATA_COUNT`), and
the data bytes. -/
def Transaction.decode_instruction (ret : Transaction) (i : Nat) (s : List Byte) :
    Except String (Instruction × List Byte) := do
  let (b, s) ← read1 s
  let pa ← match ret.find_address_at_index b with
    | some a => Except.ok a
    | none => Except.error ("Invalid program id index " ++ toString b.val ++
        " for instruction " ++ toString i)
  let (addresses_count, s) ← decode_compact_u16 s
  if addresses_count > MAXIMUM_INSTRUCTION_ADDRESS_INDEX_COUNT then
    Except.error ("Too many addresses in instruction " ++ toString i)
  else do
    let (addresses, s) ← Transaction.decode_instruction_addresses ret i addresses_count s
    let (data_count, s) ← decode_compact_u16 s
    if data_count > MAXIMUM_INSTRUCTION_DATA_COUNT then
      Except.error ("Too many data bytes in instruction " ++ toString i)
    else do
      let (data, s) ← readBytes data_count s
      Except.ok ({ program_address := pa.1, addresses := addresses, data := data }, s)

/-- The instruction reading loop of `Transaction::decode`, starting at
instruction number `i` with `n` instructions to read. -/
def Transaction.decode_instructions (ret : Transaction) :
    Nat → Nat → List Byte → Except String (List Instruction × List Byte)
  | _, 0, s => .ok ([], s)
  | i, n + 1, s => do
    let (ins, s) ← Transaction.decode_instruction ret i s
    let (rest, s) ← Transaction.decode_instructions ret (i + 1) n s
    .ok (ins :: rest, s)

/-- `Transaction::decode` from `transaction.rs`.  Reads the wire bytes in
order, validating the declared counts against the packet limits, and
returns the decoded transaction together with the unconsumed tail of the
stream (the Rust reader simply stops consuming). -/
def Transaction.decode (s : List Byte) : Except String (Transaction × List Byte) := do
  let (signatures_count, s) ← decode_compact_u16 s
  if signatures_count > MAXIMUM_ED25519_SIGNATURES_COUNT then
    Except.error "Too many signatures in transaction"
  else do
  let (signatures, s) ← Transaction.decode_signatures signatures_count s
  let (b0, s) ← read1 s
  let (b1, s) ← read1 s
  let (b2, s) ← read1 s
  let total_signed_address_count := b0.val
  if total_signed_address_count > MAXIMUM_ADDRESSES_COUNT then
    Except.error "Too many signatures supplied"
  else do
  if signatures_count > total_signed_address_count then
    Except.error "Too many signatures supplied"
  else do
  let signed_read_only_address_count := b1.val
  if signed_read_only_address_count > total_signed_address_count then
    Except.error "Too many signed read only addresses"
  else do
  let signed_read_write_address_count :=
    total_signed_address_count - signed_read_only_address_count
  if signed_read_write_address_count = 0 then
    Except.error "Minimum signed address count of 1 required for fee payer"
  else do
  let unsigned_read_only_address_count := b2.val
  let minimum_address_count := total_signed_address_count + unsigned_read_only_address_count
  let (actual_address_count, s) ← decode_compact_u16 s
  if actual_address_count < minimum_address_count then
    Except.error "Too few addresses in header"
  else do
  let unsigned_read_write_address_count := actual_address_count - minimum_address_count
  let (srw, sigs, s) ← Transaction.decode_signed_addresses
    signed_read_write_address_count signatures s
  let (sro, _, s) ← Transaction.decode_signed_addresses
    signed_read_only_address_count sigs s
  let (urw, s) ← Transaction.decode_addresses unsigned_read_write_address_count s
  let (uro, s) ← Transaction.decode_addresses unsigned_read_only_address_count s
  let (rbh, s) ← Transaction.decode_recent_blockhash s
  let ret : Transaction :=
    { signed_read_write_addresses := srw
      signed_read_only_addresses := sro
      unsigned_read_write_addresses := urw
      unsigned_read_only_addresses := uro
      recent_blockhash := rbh
      instructions := [] }
  let (instruction_count, s) ← decode_compact_u16 s
  let (instrs, s) ← Transaction.decode_instructions ret 0 instruction_count s
  Except.ok ({ ret with instructions := instrs }, s)

/-! ## Basic lemmas about `position` and the builder operations -/

theorem position_eq_none {p : α → Bool} {l : List α} :
    position p l = none ↔ ∀ x ∈ l, ¬ p x = true := by
  induction l with
  | nil => simp [position]
  | cons x xs ih =>
    by_cases hx : p x
    · simp [position, hx]
    · simp [position, hx, ih]

theorem position_append_cons {p : α → Bool} {l1 l2 : List α} {e : α}
    (h1 : ∀ x ∈ l1, ¬ p x = true) (he : p e = true) :
    position p (l1 ++ e :: l2) = some l1.length := by
  induction l1 with
  | nil => simp [position, he]
  | cons x xs ih =>
    have hx := h1 x (by simp)
    simp only [List.cons_append, position, List.length_cons]
    rw [if_neg hx]
    have := ih (fun y hy => h1 y (by simp [hy]))
    simp only [List.append_eq] at this ⊢
    rw [this]
    rfl

theorem eraseIdx_append_cons (l1 l2 : List α) (e : α) :
    (l1 ++ e :: l2).eraseIdx l1.length = l1 ++ l2 := by
  induction l1 with
  | nil => simp [List.eraseIdx]
  | cons x xs ih => simp [List.eraseIdx, ih]

theorem mem_map_signature_none (l : List PubkeyWithSignature) :
    ∀ p ∈ l.map (fun s => { s with signature := none }), p.signature = none := by
  intro p hp
  simp only [List.mem_map] at hp
  obtain ⟨q, _, rfl⟩ := hp
  rfl

theorem sign_recent_blockhash (t : Transaction) (pk : BVec 32) (sig : BVec 64) :
    (t.sign pk sig).recent_blockhash = t.recent_blockhash := rfl

theorem set_recent_blockhash_value (t : Transaction) (h : BVec 32) :
    (t.set_recent_blockhash h).recent_blockhash = some h := by
  unfold Transaction.set_recent_blockhash
  by_cases he : some h = t.recent_blockhash
  · rw [if_pos he]; exact he.symm
  · rw [if_neg he]

theorem set_recent_blockhash_of_eq (t : Transaction) (h : BVec 32)
    (heq : some h = t.recent_blockhash) : t.set_recent_blockhash h = t := by
  unfold Transaction.set_recent_blockhash
  rw [if_pos heq]

theorem set_recent_blockhash_of_ne (t : Transaction) (h : BVec 32)
    (hne : some h ≠ t.recent_blockhash) :
    t.set_recent_blockhash h =
      { t with
          recent_blockhash := some h,
          signed_read_write_addresses :=
            t.signed_read_write_addresses.map (fun s => { s with signature := none }),
          signed_read_only_addresses :=
            t.signed_read_only_addresses.map (fun s => { s with signature := none }) } := by
  unfold Transaction.set_recent_blockhash
  rw [if_neg hne]

/-- Claim C8: `set_recent_blockhash(h)` clears every signature slot in both
signed partitions when `h` differs from the current recent blockhash and
leaves the transaction unchanged when it is equal; consequently after
`set_recent_blockhash h1; sign; set_recent_blockhash h2` all slots are
empty when `h1 ≠ h2` and the installed signatures are preserved when
`h1 = h2`. -/
theorem set_recent_blockhash_signature_clear (t : Transaction)
    (h h1 h2 pk : BVec 32) (sig : BVec 64) :
    (some h ≠ t.recent_blockhash →
      (∀ p ∈ (t.set_recent_blockhash h).signed_read_write_addresses,
        p.signature = none) ∧
      (∀ p ∈ (t.set_recent_blockhash h).signed_read_only_addresses,
        p.signature = none)) ∧
    (some h = t.recent_blockhash → t.set_recent_blockhash h = t) ∧
    (h1 ≠ h2 →
      (∀ p ∈ (((t.set_recent_blockhash h1).sign pk sig).set_recent_blockhash
          h2).signed_read_write_addresses, p.signature = none) ∧
      (∀ p ∈ (((t.set_recent_blockhash h1).sign pk sig).set_recent_blockhash
          h2).signed_read_only_addresses, p.signature = none)) ∧
    (h1 = h2 →
      ((t.set_recent_blockhash h1).sign pk sig).set_recent_blockhash h2 =
        (t.set_recent_blockhash h1).sign pk sig) := by
  have hcur : ((t.set_recent_blockhash h1).sign pk sig).recent_blockhash =
      some h1 := by
    rw [sign_recent_blockhash, set_recent_blockhash_value]
  refine ⟨?_, set_recent_blockhash_of_eq t h, ?_, ?_⟩
  · intro hne
    rw [set_recent_blockhash_of_ne t h hne]
    exact ⟨mem_map_signature_none _, mem_map_signature_none _⟩
  · intro hne
    rw [set_recent_blockhash_of_ne _ h2
      (by rw [hcur]; simpa using fun he => hne he.symm)]
    exact ⟨mem_map_signature_none _, mem_map_signature_none _⟩
  · intro heq
    exact set_recent_blockhash_of_eq _ h2 (by rw [hcur, heq])

/-! ## Concrete sample values used by witnesses and counterexamples -/

def pkW0 : BVec 32 := ⟨List.replicate 32 0, by simp⟩

def pkW1 : BVec 32 := ⟨List.replicate 32 1, by simp⟩

def pkW2 : BVec 32 := ⟨List.replicate 32 2, by simp⟩

def sigW : BVec 64 := ⟨List.replicate 64 7, by simp⟩

/-- Witness for C8 at concrete inputs (both the differing and the equal
blockhash cases). -/
theorem set_recent_blockhash_signature_clear_witness :
    ((∀ p ∈ ((Transaction.new pkW0).set_recent_blockhash
        pkW1).signed_read_write_addresses, p.signature = none) ∧
      (∀ p ∈ ((Transaction.new pkW0).set_recent_blockhash
        pkW1).signed_read_only_addresses, p.signature = none)) ∧
    (((Transaction.new pkW0).set_recent_blockhash pkW1).set_recent_blockhash pkW1 =
      (Transaction.new pkW0).set_recent_blockhash pkW1) ∧
    ((∀ p ∈ ((((Transaction.new pkW0).set_recent_blockhash pkW1).sign pkW0
        sigW).set_recent_blockhash pkW2).signed_read_write_addresses,
        p.signature = none) ∧
      (∀ p ∈ ((((Transaction.new pkW0).set_recent_blockhash pkW1).sign pkW0
        sigW).set_recent_blockhash pkW2).signed_read_only_addresses,
        p.signature = none)) ∧
    ((((Transaction.new pkW0).set_recent_blockhash pkW1).sign pkW0
        sigW).set_recent_blockhash pkW1 =
      ((Transaction.new pkW0).set_recent_blockhash pkW1).sign pkW0 sigW) :=
  ⟨(set_recent_blockhash_signature_clear (Transaction.new pkW0) pkW1 pkW1 pkW2
      pkW0 sigW).1 (by decide),
    (set_recent_blockhash_signature_clear
      ((Transaction.new pkW0).set_recent_blockhash pkW1) pkW1 pkW1 pkW2 pkW0
      sigW).2.1 (by decide),
    (set_recent_blockhash_signature_clear (Transaction.new pkW0) pkW1 pkW1 pkW2
      pkW0 sigW).2.2.1 (by decide),
    (set_recent_blockhash_signature_clear (Transaction.new pkW0) pkW1 pkW1 pkW1
      pkW0 sigW).2.2.2 rfl⟩

/-- Claim C10: `add_address(A, true)` on an address currently in
`signed_read_only` (and not in `signed_read_write`) moves its first
occurrence to the end of `signed_read_write` with an empty signature slot,
discarding any installed signature; every other address, slot, partition,
instruction and the recent blockhash are unchanged. -/
theorem add_address_promotes_signed_read_only (t : Transaction) (A : BVec 32)
    (s : BVec 64) (l1 l2 : List PubkeyWithSignature) (e : PubkeyWithSignature)
    (hsplit : t.signed_read_only_addresses = l1 ++ e :: l2)
    (hA : e.pubkey = A) (hsig : e.signature = some s)
    (hl1 : ∀ x ∈ l1, x.pubkey ≠ A)
    (hrw : ∀ x ∈ t.signed_read_write_addresses, x.pubkey ≠ A) :
    t.add_address A true =
      { t with
          signed_read_only_addresses := l1 ++ l2,
          signed_read_write_addresses :=
            t.signed_read_write_addresses ++ [{ pubkey := A, signature := none }] } := by
  have h1 : position (fun x => A == x.pubkey) t.signed_read_write_addresses = none :=
    position_eq_none.mpr (by
      intro x hx
      simpa using fun he => (hrw x hx) he.symm)
  have h2 : position (fun x => A == x.pubkey) t.signed_read_only_addresses =
      some l1.length := by
    rw [hsplit]
    exact position_append_cons
      (by intro x hx; simpa using fun he => (hl1 x hx) he.symm) (by simp [hA])
  simp only [Transaction.add_address, h1, h2, if_true]
  rw [hsplit, eraseIdx_append_cons]

/-- The transaction for C10's witness: fee payer `pkW0`, with `pkW1` signed
read-only and holding a signature. -/
def tC10 : Transaction :=
  { signed_read_write_addresses := [{ pubkey := pkW0, signature := none }]
    signed_read_only_addresses := [{ pubkey := pkW1, signature := some sigW }]
    unsigned_read_write_addresses := []
    unsigned_read_only_addresses := []
    recent_blockhash := none
    instructions := [] }

/-- Witness for C10 at a concrete transaction. -/
theorem add_address_promotes_signed_read_only_witness :
    tC10.add_address pkW1 true =
      { tC10 with
          signed_read_only_addresses := [] ++ [],
          signed_read_write_addresses :=
            tC10.signed_read_write_addresses ++ [{ pubkey := pkW1, signature := none }] } :=
  add_address_promotes_signed_read_only tC10 pkW1 sigW [] []
    { pubkey := pkW1, signature := some sigW } rfl rfl rfl (by simp) (by decide)

/-- The call sequence exhibiting the C2 partition-duplication bug:
`new(pkW0)`, `add_address(pkW1, false)`, `add_signature(pkW1, true)`. -/
def tC2 : Transaction :=
  ((Transaction.new pkW0).add_address pkW1 false).add_signature pkW1 true

/-- Claim C2 (code bug): after `add_address(A, false)` followed by
`add_signature(A, true)`, the address `A` is simultaneously a member of
`signed_read_write` and of `unsigned_read_only` — the `is_read_write`
branch of `add_signature` never removes the address from
`unsigned_read_only`, violating the at-most-one-partition invariant. -/
theorem add_signature_partition_duplication :
    (∃ x ∈ tC2.signed_read_write_addresses, x.pubkey = pkW1) ∧
      pkW1 ∈ tC2.unsigned_read_only_addresses := by decide

/-! ## Compact-u16 codec lemmas -/

theorem exceptOkBind {ε α β : Type} (a : α) (f : α → Except ε β) :
    (Except.ok a : Except ε α) >>= f = f a := rfl

theorem encode_compact_u16_length (v : Nat) :
    1 ≤ (encode_compact_u16 v).length ∧ (encode_compact_u16 v).length ≤ 3 := by
  unfold encode_compact_u16
  by_cases h1 : v > 127
  · rw [if_pos h1]
    by_cases h2 : v / 128 > 127
    · rw [if_pos h2]; exact ⟨by simp, by simp⟩
    · rw [if_neg h2]; exact ⟨by simp, by simp⟩
  · rw [if_neg h1]; exact ⟨by simp, by simp⟩

/-- Round-trip of the compact-u16 codec with an arbitrary trailing stream. -/
theorem byteValMk (a : Nat) (h : a < 256) : (⟨a, h⟩ : Byte).val = a := rfl

theorem decode_encode_compact_u16 (v : Nat) (h : v < 65536) (rest : List Byte) :
    decode_compact_u16 (encode_compact_u16 v ++ rest) = .ok (v, rest) := by
  unfold encode_compact_u16
  by_cases h1 : v > 127
  · rw [if_pos h1]
    by_cases h2 : v / 128 > 127
    · rw [if_pos h2]
      simp only [List.cons_append, List.nil_append, decode_compact_u16, read1,
        exceptOkBind, byteValMk]
      rw [if_pos (show v % 128 + 128 ≥ 128 by omega),
        if_pos (show v / 128 % 128 + 128 ≥ 128 by omega)]
      simp only [Except.ok.injEq, Prod.mk.injEq]
      exact ⟨by omega, trivial⟩
    · rw [if_neg h2]
      simp only [List.cons_append, List.nil_append, decode_compact_u16, read1,
        exceptOkBind, byteValMk]
      rw [if_pos (show v % 128 + 128 ≥ 128 by omega),
        if_neg (show ¬ v / 128 % 128 ≥ 128 by omega)]
      simp only [Except.ok.injEq, Prod.mk.injEq]
      exact ⟨by omega, trivial⟩
  · rw [if_neg h1]
    simp only [List.cons_append, List.nil_append, decode_compact_u16, read1,
      exceptOkBind, byteValMk]
    rw [if_neg (show ¬ v % 128 ≥ 128 by omega)]
    simp only [Except.ok.injEq, Prod.mk.injEq]
    exact ⟨by omega, trivial⟩

/-- Claim C7: for every value in `0..=65535`, `encode_compact_u16` writes
between 1 and 3 bytes, and `decode_compact_u16` applied to exactly those
bytes returns the value (with an empty remainder). -/
theorem compact_u16_roundtrip (v : Nat) (h : v ≤ 65535) :
    1 ≤ (encode_compact_u16 v).length ∧ (encode_compact_u16 v).length ≤ 3 ∧
      decode_compact_u16 (encode_compact_u16 v) = .ok (v, []) :=
  ⟨(encode_compact_u16_length v).1, (encode_compact_u16_length v).2, by
    have := decode_encode_compact_u16 v (by omega) []
    simpa using this⟩

/-- Witness for C7 at the concrete values from the spec's short-vector
examples. -/
theorem compact_u16_roundtrip_witness :
    (1 ≤ (encode_compact_u16 16384).length ∧
      (encode_compact_u16 16384).length ≤ 3 ∧
      decode_compact_u16 (encode_compact_u16 16384) = .ok (16384, [])) ∧
    (1 ≤ (encode_compact_u16 65535).length ∧
      (encode_compact_u16 65535).length ≤ 3 ∧
      decode_compact_u16 (encode_compact_u16 65535) = .ok (65535, [])) :=
  ⟨compact_u16_roundtrip 16384 (by omega), compact_u16_roundtrip 65535 (by omega)⟩

/-! ## `Transaction::message` header lemmas -/

theorem exceptErrBind {ε α β : Type} (e : ε) (f : α → Except ε β) :
    (Except.error e : Except ε α) >>= f = .error e := rfl

theorem mapM_nil_except {α β : Type} (f : α → Except String β) :
    List.mapM f [] = Except.ok [] := rfl

/-- With no instructions and at most 255 signed addresses,
`Transaction::message` succeeds, and its third header byte is the unsigned
read-only count reduced `% 256` by the `as u8` cast. -/
theorem message_ok_no_instructions (t : Transaction)
    (hinstr : t.instructions = [])
    (hsig : t.signed_read_write_addresses.length +
      t.signed_read_only_addresses.length ≤ 255) :
    t.message = .ok
      (⟨t.signed_read_write_addresses.length +
          t.signed_read_only_addresses.length, by omega⟩ ::
        ⟨t.signed_read_only_addresses.length, by omega⟩ ::
        ⟨t.unsigned_read_only_addresses.length % 256, Nat.mod_lt _ (by omega)⟩ ::
        (encode_compact_u16 ((t.signed_read_write_addresses.length +
            t.signed_read_only_addresses.length +
            t.unsigned_read_write_addresses.length +
            t.unsigned_read_only_addresses.length) % 65536) ++
          (t.signed_read_write_addresses.map (·.pubkey) ++
            t.signed_read_only_addresses.map (·.pubkey) ++
            t.unsigned_read_write_addresses ++
            t.unsigned_read_only_addresses).flatMap (·.val) ++
          (t.recent_blockhash.getD EMPTY_RECENT_BLOCKHASH).val ++
          encode_compact_u16 0)) := by
  unfold Transaction.message
  rw [dif_pos hsig]
  simp only [exceptOkBind]
  rw [dif_pos (show t.signed_read_only_addresses.length ≤ 255 by omega)]
  simp only [exceptOkBind, hinstr, List.length_nil, mapM_nil_except,
    List.flatten_nil, List.append_nil, List.cons_append, List.nil_append]
  rw [if_neg (by omega)]

/-- Claim C6 (amended): `Transaction::message` fails with "Too many signed
addresses" whenever `num_required_signatures` exceeds 255 (this check
subsumes the `num_readonly_signed` one, which can never fire on its own
since `num_readonly_signed ≤ num_required_signatures`); the
`num_readonly_unsigned` count, however, is *not* checked: it is written as
`len as u8`, i.e. silently truncated `% 256`. -/
theorem message_header_count_behavior (t : Transaction) :
    (t.signed_read_write_addresses.length +
        t.signed_read_only_addresses.length > 255 →
      t.message = .error "Too many signed addresses") ∧
    (t.instructions = [] →
      t.signed_read_write_addresses.length +
        t.signed_read_only_addresses.length ≤ 255 →
      ∃ l, t.message = .ok l ∧
        l[2]? = some ⟨t.unsigned_read_only_addresses.length % 256,
          Nat.mod_lt _ (by omega)⟩) := by
  constructor
  · intro hgt
    unfold Transaction.message
    rw [dif_neg (by omega)]
    rfl
  · intro hinstr hsig
    exact ⟨_, message_ok_no_instructions t hinstr hsig, by simp⟩

/-- The counterexample transaction for C6: one signed address and 256
unsigned read-only addresses. -/
def tC6 : Transaction :=
  { signed_read_write_addresses := [{ pubkey := pkW0, signature := none }]
    signed_read_only_addresses := []
    unsigned_read_write_addresses := []
    unsigned_read_only_addresses := List.replicate 256 pkW1
    recent_blockhash := none
    instructions := [] }

set_option maxRecDepth 4000 in
/-- Counterexample to C6 as stated: a transaction whose
`num_readonly_unsigned` count is 256 (> 255) for which
`Transaction::message` nevertheless succeeds (writing the truncated header
byte 0). -/
theorem message_unsigned_count_not_checked :
    tC6.unsigned_read_only_addresses.length = 256 ∧
      tC6.message.isOk = true ∧
      (tC6.message.toOption.getD [])[2]? = some 0 := by
  refine ⟨?_, ?_, ?_⟩
  · show (List.replicate 256 pkW1).length = 256
    rw [List.length_replicate]
  · rw [message_ok_no_instructions tC6 rfl (by decide)]
    rfl
  · rw [message_ok_no_instructions tC6 rfl (by decide)]
    have h256 : tC6.unsigned_read_only_addresses.length = 256 :=
      List.length_replicate ..
    simp [h256, Except.toOption, Option.getD]

/-- The transaction for the error half of C6's witness: 256 signed
read-write addresses. -/
def tC6sig : Transaction :=
  { signed_read_write_addresses :=
      List.replicate 256 { pubkey := pkW0, signature := none }
    signed_read_only_addresses := []
    unsigned_read_write_addresses := []
    unsigned_read_only_addresses := []
    recent_blockhash := none
    instructions := [] }

set_option maxRecDepth 4000 in
/-- Witness for C6's amended theorem at concrete transactions. -/
theorem message_header_count_behavior_witness :
    (tC6sig.message = .error "Too many signed addresses") ∧
    (∃ l, tC6.message = .ok l ∧
      l[2]? = some ⟨tC6.unsigned_read_only_addresses.length % 256,
        Nat.mod_lt _ (by omega)⟩) :=
  ⟨(message_header_count_behavior tC6sig).1
      (by show (List.replicate 256 _).length + _ > 255
          rw [List.length_replicate]
          omega),
    (message_header_count_behavior tC6).2 rfl (by decide)⟩

/-! ## Round-trip lemmas for the wire codec components -/

theorem read1_cons (b : Byte) (rest : List Byte) :
    read1 (b :: rest) = .ok (b, rest) := rfl

theorem readBVec_append {n : Nat} (v : BVec n) (rest : List Byte) :
    readBVec n (v.val ++ rest) = .ok (v, rest) := by
  unfold readBVec
  rw [dif_pos (by simp [v.2])]
  simp only [Except.ok.injEq, Prod.mk.injEq]
  exact ⟨Subtype.ext (List.take_left' v.2), List.drop_left' v.2⟩

theorem decode_signatures_append (l : List PubkeyWithSignature) (n : Nat)
    (hn : n = l.length)
    (hl : ∀ p ∈ l, p.signature ≠ some EMPTY_SIGNATURE_BYTES)
    (rest : List Byte) :
    Transaction.decode_signatures n
        (l.flatMap (fun p => (p.signature.getD EMPTY_SIGNATURE_BYTES).val) ++ rest) =
      .ok (l.map (·.signature), rest) := by
  subst hn
  induction l with
  | nil => rfl
  | cons p l ih =>
    simp only [List.flatMap_cons, List.length_cons, List.append_assoc, List.map_cons]
    show Transaction.decode_signatures (l.length + 1) _ = _
    unfold Transaction.decode_signatures
    rw [readBVec_append (p.signature.getD EMPTY_SIGNATURE_BYTES)]
    simp only [exceptOkBind]
    rw [ih (fun q hq => hl q (by simp [hq]))]
    simp only [exceptOkBind]
    cases hs : p.signature with
    | none => simp [Option.getD]
    | some s =>
      have : s ≠ EMPTY_SIGNATURE_BYTES := by
        intro he
        exact hl p (by simp) (by rw [hs, he])
      simp [Option.getD, this]

theorem decode_signed_addresses_append (l : List PubkeyWithSignature) (n : Nat)
    (hn : n = l.length) (sigs_rest : List (Option (BVec 64))) (rest : List Byte) :
    Transaction.decode_signed_addresses n (l.map (·.signature) ++ sigs_rest)
        ((l.map (·.pubkey)).flatMap (·.val) ++ rest) =
      .ok (l, sigs_rest, rest) := by
  subst hn
  induction l with
  | nil => rfl
  | cons p l ih =>
    simp only [List.map_cons, List.flatMap_cons, List.length_cons, List.append_assoc]
    show Transaction.decode_signed_addresses (l.length + 1) _ _ = _
    unfold Transaction.decode_signed_addresses
      Transaction.decode_signature_from_header Transaction.decode_address
    rw [readBVec_append p.pubkey]
    simp only [exceptOkBind, List.cons_append, List.head?_cons, List.tail_cons,
      Option.getD_some]
    rw [ih]
    rfl

theorem decode_addresses_append (l : List (BVec 32)) (n : Nat)
    (hn : n = l.length) (rest : List Byte) :
    Transaction.decode_addresses n (l.flatMap (·.val) ++ rest) = .ok (l, rest) := by
  subst hn
  induction l with
  | nil => rfl
  | cons a l ih =>
    simp only [List.flatMap_cons, List.length_cons, List.append_assoc]
    show Transaction.decode_addresses (l.length + 1) _ = _
    unfold Transaction.decode_addresses Transaction.decode_address
    rw [readBVec_append a]
    simp only [exceptOkBind]
    rw [ih]
    rfl

theorem decode_recent_blockhash_append (o : Option (BVec 32))
    (ho : o ≠ some EMPTY_RECENT_BLOCKHASH) (rest : List Byte) :
    Transaction.decode_recent_blockhash ((o.getD EMPTY_RECENT_BLOCKHASH).val ++ rest) =
      .ok (o, rest) := by
  unfold Transaction.decode_recent_blockhash
  rw [readBVec_append (o.getD EMPTY_RECENT_BLOCKHASH)]
  simp only [exceptOkBind]
  cases o with
  | none => simp [Option.getD]
  | some h =>
    have : h ≠ EMPTY_RECENT_BLOCKHASH := fun he => ho (by rw [he])
    simp [Option.getD, this]

theorem readBytes_append (l : List Byte) (n : Nat) (hn : n = l.length)
    (rest : List Byte) : readBytes n (l ++ rest) = .ok (l, rest) := by
  subst hn
  unfold readBytes
  rw [if_pos (by simp)]
  rw [List.take_left' rfl, List.drop_left' rfl]

theorem find_address_at_index_no_instructions (t : Transaction) (b : Byte) :
    Transaction.find_address_at_index { t with instructions := [] } b =
      t.find_address_at_index b := rfl

/-- The account-index list of an instruction encodes through
`find_address_index` and decodes back through `find_address_at_index`
whenever each entry's table lookup round-trips to itself. -/
theorem encode_decode_instruction_addresses (t : Transaction)
    (l : List (BVec 32 × Bool × Bool)) (k : Nat)
    (h : ∀ e ∈ l, ∃ j, t.find_address_index e.1 = some j ∧
      t.find_address_at_index j = some e) (rest : List Byte) :
    ∃ idxs : List Byte,
      List.mapM (fun a =>
        match t.find_address_index a.1 with
        | some b => Except.ok b
        | none => Except.error "Invalid Transaction - address is not in address list") l =
        .ok idxs ∧
      Transaction.decode_instruction_addresses { t with instructions := [] } k
        l.length (idxs ++ rest) = .ok (l, rest) := by
  induction l generalizing rest with
  | nil => exact ⟨[], rfl, rfl⟩
  | cons e l ih =>
    obtain ⟨j, hj, hat⟩ := h e (by simp)
    obtain ⟨idxs, hmap, hdec⟩ := ih (fun x hx => h x (by simp [hx])) rest
    refine ⟨j :: idxs, ?_, ?_⟩
    · rw [List.mapM_cons, hj]
      simp only [exceptOkBind]
      rw [hmap]
      rfl
    · show Transaction.decode_instruction_addresses _ k (l.length + 1)
        ((j :: idxs) ++ rest) = _
      unfold Transaction.decode_instruction_addresses
      simp only [List.cons_append, read1_cons, exceptOkBind,
        find_address_at_index_no_instructions]
      rw [hat]
      simp only [exceptOkBind]
      rw [hdec]
      rfl

/-- One instruction encodes through `encode_instruction` and decodes back
through `decode_instruction` when its table lookups round-trip and its
counts are within the packet limits. -/
theorem encode_decode_instruction (t : Transaction) (ins : Instruction) (k : Nat)
    (hprog : ∃ j fl, t.find_address_index ins.program_address = some j ∧
      t.find_address_at_index j = some (ins.program_address, fl))
    (haddrs : ∀ e ∈ ins.addresses, ∃ j, t.find_address_index e.1 = some j ∧
      t.find_address_at_index j = some e)
    (hacount : ins.addresses.length ≤ MAXIMUM_INSTRUCTION_ADDRESS_INDEX_COUNT)
    (hdcount : ins.data.length ≤ MAXIMUM_INSTRUCTION_DATA_COUNT)
    (rest : List Byte) :
    ∃ bs, t.encode_instruction ins = .ok bs ∧
      Transaction.decode_instruction { t with instructions := [] } k (bs ++ rest) =
        .ok (ins, rest) := by
  have hacount' : ins.addresses.length ≤ 1190 := hacount
  have hdcount' : ins.data.length ≤ 1192 := hdcount
  have halen : ins.addresses.length % 65536 = ins.addresses.length :=
    Nat.mod_eq_of_lt (by omega)
  have hdlen : ins.data.length % 65536 = ins.data.length :=
    Nat.mod_eq_of_lt (by omega)
  obtain ⟨j, fl, hj, hat⟩ := hprog
  obtain ⟨idxs, hmap, hdec⟩ := encode_decode_instruction_addresses t ins.addresses k
    haddrs (encode_compact_u16 ins.data.length ++ (ins.data ++ rest))
  refine ⟨[j] ++ encode_compact_u16 ins.addresses.length ++ idxs ++
    encode_compact_u16 ins.data.length ++ ins.data, ?_, ?_⟩
  · unfold Transaction.encode_instruction
    rw [hj]
    simp only [exceptOkBind]
    rw [hmap]
    simp only [exceptOkBind]
    rw [if_neg (show ¬ ins.data.length > MAXIMUM_INSTRUCTION_DATA_COUNT from
      by omega)]
    rw [halen, hdlen]
  · unfold Transaction.decode_instruction
    simp only [List.cons_append, List.nil_append, List.append_assoc, read1_cons,
      exceptOkBind, find_address_at_index_no_instructions]
    rw [hat]
    simp only [exceptOkBind]
    rw [decode_encode_compact_u16 ins.addresses.length (by omega)]
    simp only [exceptOkBind]
    rw [if_neg (show ¬ ins.addresses.length >
      MAXIMUM_INSTRUCTION_ADDRESS_INDEX_COUNT from by omega)]
    rw [hdec]
    simp only [exceptOkBind]
    rw [decode_encode_compact_u16 ins.data.length (by omega)]
    simp only [exceptOkBind]
    rw [if_neg (show ¬ ins.data.length > MAXIMUM_INSTRUCTION_DATA_COUNT from
      by omega)]
    rw [readBytes_append ins.data ins.data.length rfl]
    rfl

/-- The instruction list encodes through `mapM encode_instruction` and
decodes back through the `decode_instructions` loop. -/
theorem encode_decode_instructions (t : Transaction) (l : List Instruction)
    (k : Nat)
    (h : ∀ ins ∈ l,
      (∃ j fl, t.find_address_index ins.program_address = some j ∧
        t.find_address_at_index j = some (ins.program_address, fl)) ∧
      (∀ e ∈ ins.addresses, ∃ j, t.find_address_index e.1 = some j ∧
        t.find_address_at_index j = some e) ∧
      ins.addresses.length ≤ MAXIMUM_INSTRUCTION_ADDRESS_INDEX_COUNT ∧
      ins.data.length ≤ MAXIMUM_INSTRUCTION_DATA_COUNT)
    (rest : List Byte) :
    ∃ bss, List.mapM t.encode_instruction l = .ok bss ∧
      Transaction.decode_instructions { t with instructions := [] } k l.length
        (bss.flatten ++ rest) = .ok (l, rest) := by
  induction l generalizing k rest with
  | nil => exact ⟨[], rfl, rfl⟩
  | cons ins l ih =>
    obtain ⟨hprog, haddrs, hacount, hdcount⟩ := h ins (by simp)
    obtain ⟨bss, hmapl, hdecl⟩ := ih (k + 1) (fun x hx => h x (by simp [hx])) rest
    obtain ⟨bs, hmap1, hdec1⟩ := encode_decode_instruction t ins k hprog haddrs
      hacount hdcount (bss.flatten ++ rest)
    refine ⟨bs :: bss, ?_, ?_⟩
    · rw [List.mapM_cons, hmap1]
      simp only [exceptOkBind]
      rw [hmapl]
      rfl
    · show Transaction.decode_instructions _ k (l.length + 1)
        ((bs :: bss).flatten ++ rest) = _
      unfold Transaction.decode_instructions
      simp only [List.flatten_cons, List.append_assoc]
      rw [hdec1]
      simp only [exceptOkBind]
      rw [hdecl]
      rfl

/-- `Transaction::message` succeeds whenever the signed count fits a byte,
the instruction count fits a `u16`, and every instruction encodes; the
produced bytes are header, addresses, blockhash and instruction bytes in
wire order. -/
theorem message_ok (t : Transaction) (ibytes : List (List Byte))
    (hsig : t.signed_read_write_addresses.length +
      t.signed_read_only_addresses.length ≤ 255)
    (hicount : t.instructions.length ≤ 65535)
    (hmap : List.mapM t.encode_instruction t.instructions = .ok ibytes) :
    t.message = .ok
      (⟨t.signed_read_write_addresses.length +
          t.signed_read_only_addresses.length, by omega⟩ ::
        ⟨t.signed_read_only_addresses.length, by omega⟩ ::
        ⟨t.unsigned_read_only_addresses.length % 256, Nat.mod_lt _ (by omega)⟩ ::
        (encode_compact_u16 ((t.signed_read_write_addresses.length +
            t.signed_read_only_addresses.length +
            t.unsigned_read_write_addresses.length +
            t.unsigned_read_only_addresses.length) % 65536) ++
          (t.signed_read_write_addresses.map (·.pubkey) ++
            t.signed_read_only_addresses.map (·.pubkey) ++
            t.unsigned_read_write_addresses ++
            t.unsigned_read_only_addresses).flatMap (·.val) ++
          (t.recent_blockhash.getD EMPTY_RECENT_BLOCKHASH).val ++
          encode_compact_u16 (t.instructions.length % 65536) ++
          ibytes.flatten)) := by
  have h2 : t.signed_read_only_addresses.length ≤ 255 := by omega
  have h3 : ¬ t.instructions.length > 65535 := by omega
  simp only [Transaction.message, dif_pos hsig, dif_pos h2, if_neg h3, hmap,
    exceptOkBind]
  simp only [List.cons_append, List.nil_append, List.append_assoc]

/-- `Transaction::encode` succeeds whenever the message does and the signed
count fits a `u16`. -/
theorem encode_ok (t : Transaction) (m : List Byte)
    (hsig : t.signed_read_write_addresses.length +
      t.signed_read_only_addresses.length ≤ 65535)
    (hmsg : t.message = .ok m) :
    t.encode = .ok
      (encode_compact_u16 ((t.signed_read_write_addresses.length +
          t.signed_read_only_addresses.length) % 65536) ++
        (t.signed_read_write_addresses ++
          t.signed_read_only_addresses).flatMap
          (fun p => (p.signature.getD EMPTY_SIGNATURE_BYTES).val) ++ m) := by
  unfold Transaction.encode
  rw [if_neg (by omega)]
  rw [hmsg]
  simp only [exceptOkBind]

/-- Variant of `decode_signed_addresses_append` for the final signed group,
where the signature iterator holds exactly the group's slots. -/
theorem decode_signed_addresses_exact (l : List PubkeyWithSignature) (n : Nat)
    (hn : n = l.length) (rest : List Byte) :
    Transaction.decode_signed_addresses n (l.map (·.signature))
        ((l.map (·.pubkey)).flatMap (·.val) ++ rest) =
      .ok (l, [], rest) := by
  have := decode_signed_addresses_append l n hn [] rest
  rwa [List.append_nil] at this

/-- Claim C1 (amended): for every transaction within the wire limits — fee
payer present, at most 18 signed addresses, at most 255 unsigned read-only
addresses, at most 65535 total addresses and instructions, no stored
signature equal to the all-zero sentinel, recent blockhash (when set) not
all zero, and every instruction within the per-instruction limits with its
program and account references resolving through the address table to
exactly their stored `(address, is_signed, is_read_write)` triples —
decoding the bytes produced by `Transaction::encode` yields the
transaction unchanged in every field. -/
theorem decode_encode_transaction (t : Transaction)
    (h_fee : 1 ≤ t.signed_read_write_addresses.length)
    (h_sig : t.signed_read_write_addresses.length +
      t.signed_read_only_addresses.length ≤ MAXIMUM_ED25519_SIGNATURES_COUNT)
    (h_uro : t.unsigned_read_only_addresses.length ≤ 255)
    (h_total : t.signed_read_write_addresses.length +
      t.signed_read_only_addresses.length +
      t.unsigned_read_write_addresses.length +
      t.unsigned_read_only_addresses.length ≤ 65535)
    (h_sent : ∀ p ∈ t.signed_read_write_addresses ++ t.signed_read_only_addresses,
      p.signature ≠ some EMPTY_SIGNATURE_BYTES)
    (h_bh : t.recent_blockhash ≠ some EMPTY_RECENT_BLOCKHASH)
    (h_icount : t.instructions.length ≤ 65535)
    (h_ins : ∀ ins ∈ t.instructions,
      (∃ j fl, t.find_address_index ins.program_address = some j ∧
        t.find_address_at_index j = some (ins.program_address, fl)) ∧
      (∀ e ∈ ins.addresses, ∃ j, t.find_address_index e.1 = some j ∧
        t.find_address_at_index j = some e) ∧
      ins.addresses.length ≤ MAXIMUM_INSTRUCTION_ADDRESS_INDEX_COUNT ∧
      ins.data.length ≤ MAXIMUM_INSTRUCTION_DATA_COUNT) :
    ∃ bs, t.encode = .ok bs ∧ Transaction.decode bs = .ok (t, []) := by
  have h18 : t.signed_read_write_addresses.length +
      t.signed_read_only_addresses.length ≤ 18 := h_sig
  obtain ⟨bss, hmapI, hdecI⟩ := encode_decode_instructions t t.instructions 0 h_ins []
  rw [List.append_nil] at hdecI
  have hmsg := message_ok t bss (by omega) h_icount hmapI
  have henc := encode_ok t _ (by omega) hmsg
  refine ⟨_, henc, ?_⟩
  have hmod_sig : (t.signed_read_write_addresses.length +
      t.signed_read_only_addresses.length) % 65536 =
      t.signed_read_write_addresses.length +
        t.signed_read_only_addresses.length := Nat.mod_eq_of_lt (by omega)
  have hmod_total : (t.signed_read_write_addresses.length +
      t.signed_read_only_addresses.length +
      t.unsigned_read_write_addresses.length +
      t.unsigned_read_only_addresses.length) % 65536 =
      t.signed_read_write_addresses.length +
        t.signed_read_only_addresses.length +
        t.unsigned_read_write_addresses.length +
        t.unsigned_read_only_addresses.length := Nat.mod_eq_of_lt (by omega)
  have hmod_uro : t.unsigned_read_only_addresses.length % 256 =
      t.unsigned_read_only_addresses.length := Nat.mod_eq_of_lt (by omega)
  have hmod_ic : t.instructions.length % 65536 = t.instructions.length :=
    Nat.mod_eq_of_lt (by omega)
  unfold Transaction.decode
  simp only [MAXIMUM_ED25519_SIGNATURES_COUNT, MAXIMUM_ADDRESSES_COUNT]
  rw [hmod_sig, hmod_total, hmod_ic]
  simp only [List.append_assoc]
  rw [decode_encode_compact_u16 (t.signed_read_write_addresses.length +
    t.signed_read_only_addresses.length) (by omega)]
  simp only [exceptOkBind]
  rw [if_neg (by omega)]
  rw [decode_signatures_append (t.signed_read_write_addresses ++
    t.signed_read_only_addresses) _ (by rw [List.length_append]) h_sent]
  simp only [exceptOkBind, read1_cons, byteValMk, List.map_append]
  rw [if_neg (by omega)]
  rw [if_neg (by omega)]
  rw [if_neg (by omega)]
  rw [if_neg (by omega)]
  rw [hmod_uro]
  rw [decode_encode_compact_u16 (t.signed_read_write_addresses.length +
    t.signed_read_only_addresses.length +
    t.unsigned_read_write_addresses.length +
    t.unsigned_read_only_addresses.length) (by omega)]
  simp only [exceptOkBind]
  rw [if_neg (by omega)]
  simp only [List.flatMap_append, List.append_assoc]
  rw [decode_signed_addresses_append t.signed_read_write_addresses _ (by omega)]
  simp only [exceptOkBind]
  rw [decode_signed_addresses_exact t.signed_read_only_addresses _ rfl]
  simp only [exceptOkBind]
  rw [decode_addresses_append t.unsigned_read_write_addresses _ (by omega)]
  simp only [exceptOkBind]
  rw [decode_addresses_append t.unsigned_read_only_addresses _ rfl]
  simp only [exceptOkBind]
  rw [decode_recent_blockhash_append t.recent_blockhash h_bh]
  simp only [exceptOkBind]
  rw [decode_encode_compact_u16 t.instructions.length (by omega)]
  simp only [exceptOkBind]
  rw [hdecI]
  rfl

deriving instance DecidableEq for Except

/-- The counterexample transaction for C1: built through the public API,
with an instruction that references the fee payer with
`(is_signed, is_read_write) = (false, false)` even though the fee payer
sits in the signed read-write partition. -/
def tC1 : Transaction :=
  (Transaction.new pkW0).add_instruction
    { program_address := pkW1, addresses := [(pkW0, false, false)], data := [] }

set_option maxRecDepth 10000 in
/-- Counterexample to C1 as stated: decoding the encoded bytes of `tC1`
does not return `tC1` — the instruction's account flags are re-derived
from the partition table on decode, so `(false, false)` comes back as
`(true, true)`. -/
theorem decode_encode_changes_instruction_flags :
    (tC1.encode >>= Transaction.decode) ≠ .ok (tC1, []) ∧
    (tC1.encode >>= Transaction.decode).toOption.map
      (fun p => p.1.instructions.map (·.addresses)) = some [[(pkW0, true, true)]] ∧
    tC1.instructions.map (·.addresses) = [[(pkW0, false, false)]] := by decide

/-- The transaction for C1's witness: like `tC1` but with account flags
that agree with the partition table, plus data bytes. -/
def tC1w : Transaction :=
  (Transaction.new pkW0).add_instruction
    { program_address := pkW1, addresses := [(pkW0, true, true)], data := [5, 6] }

set_option maxRecDepth 10000 in
/-- Witness for C1's amended theorem at a concrete transaction. -/
theorem decode_encode_transaction_witness :
    ∃ bs, tC1w.encode = .ok bs ∧ Transaction.decode bs = .ok (tC1w, []) :=
  decode_encode_transaction tC1w (by decide) (by decide) (by decide) (by decide)
    (by decide) (by decide) (by decide) (by decide)

/-! ## The data-value language and its encoders (`main.rs`) -/

/-- `Encoding` from `main.rs`: the four encoding dialects. -/
inductive Encoding where
  | RustBincodeVarInt
  | RustBincodeFixedInt
  | RustBorsh
  | C
deriving DecidableEq

/-- The cryptographic primitives used by PDA derivation, kept abstract:
`sha256` models the `sha2` crate's SHA-256 and `bytes_are_curve_point`
models the curve25519 compressed-Edwards-Y decompression test.  Both are
external library functions (not part of the repository source). -/
structure PdaEnv where
  sha256 : List Byte → BVec 32
  bytes_are_curve_point : BVec 32 → Bool

/-- The UTF-8 bytes of `"ProgramDerivedAddress"`, appended to the hash
input by `try_find_pda`. -/
def PDA_MARKER : List Byte :=
  [80, 114, 111, 103, 114, 97, 109, 68, 101, 114, 105, 118, 101, 100,
    65, 100, 100, 114, 101, 115, 115]

/-- `try_find_pda` from `main.rs`: SHA-256 of
`seed || bump? || program_id || "ProgramDerivedAddress"`, rejected when
the digest decodes as a curve point. -/
def try_find_pda (env : PdaEnv) (pubkey : BVec 32) (seed : List Byte)
    (bump_seed : Option Byte) : Option (BVec 32) :=
  let hash := env.sha256 (seed ++
    (match bump_seed with | some b => [b] | none => []) ++
    pubkey.val ++ PDA_MARKER)
  if env.bytes_are_curve_point hash then none else some hash

/-- The descending bump loop of `find_pda`: `find_pda_loop … (n + 1)`
tries bump `n` and recurses; `find_pda_loop … 0` has exhausted the
range.  The `% 256` is a no-op for every reachable call (bumps run from
255 down to 0). -/
def find_pda_loop (env : PdaEnv) (program_id : BVec 32) (seed : List Byte) :
    Nat → Option (BVec 32 × Byte)
  | 0 => none
  | n + 1 =>
    let bump : Byte := ⟨n % 256, Nat.mod_lt _ (by omega)⟩
    match try_find_pda env program_id seed (some bump) with
    | some pubkey => some (pubkey, bump)
    | none => find_pda_loop env program_id seed n

/-- `find_pda` from `main.rs`: first `(pda, bump)` with bump descending
from 255. -/
def find_pda (env : PdaEnv) (program_id : BVec 32) (seed : List Byte) :
    Option (BVec 32 × Byte) :=
  find_pda_loop env program_id seed 256

/-- Encoder failure: an ordinary `Err` return (`stre(...)`) or a Rust
panic (`.unwrap()` on `None`). -/
inductive EncErr where
  | err (msg : String)
  | panicked (msg : String)
deriving DecidableEq

/-- Little-endian bytes of a value at a fixed byte width (`to_le_bytes`);
bits beyond the width are truncated as the corresponding Rust cast would. -/
def leBytes : Nat → Nat → List Byte
  | 0, _ => []
  | w + 1, v => ⟨v % 256, Nat.mod_lt _ (by omega)⟩ :: leBytes w (v / 256)

/-- A Rust `bool` as its single encoded byte (`0`/`1`). -/
def boolByte (b : Bool) : Byte := if b then 1 else 0

/-- Modelled from the spec: the external bincode crate's variable-length
integer encoding (used by `bincode_encode` with
`with_varint_encoding()`).  A value below 251 is a single byte; otherwise
a marker byte (251 for `u16`, 252 for `u32`, 253 for `u64`) precedes the
fixed little-endian bytes of the value.  `u8`/`i8` never take this path
(bincode always writes them as single bytes). -/
def bincodeVarint (v : Nat) : List Byte :=
  if v < 251 then [⟨v % 256, Nat.mod_lt _ (by omega)⟩]
  else if v < 65536 then ⟨251, by omega⟩ :: leBytes 2 v
  else if v < 4294967296 then ⟨252, by omega⟩ :: leBytes 4 v
  else ⟨253, by omega⟩ :: leBytes 8 v

/-- `bincode_encode` for an unsigned integer of the given byte width:
varint encoding or fixed little-endian. -/
def bincodeNat (varint : Bool) (width : Nat) (v : Nat) : List Byte :=
  if varint then bincodeVarint v else leBytes width v

/-- Modelled from the spec: bincode's zigzag mapping for signed integers
under varint encoding. -/
def zigzag (i : Int) : Nat :=
  if 0 ≤ i then (2 * i).toNat else (-(2 * i) - 1).toNat

/-- Little-endian two's-complement bytes of a signed integer at a fixed
byte width. -/
def intLeBytes (width : Nat) (i : Int) : List Byte :=
  leBytes width (i.emod (2 ^ (8 * width))).toNat

/-- `bincode_encode` for a signed integer of the given byte width. -/
def bincodeInt (varint : Bool) (width : Nat) (i : Int) : List Byte :=
  if varint then bincodeVarint (zigzag i) else intLeBytes width i

/-- `DataValue` from `main.rs`.  Integer payloads carry their Rust-typed
ranges (`Fin (2^w)` for unsigned; `Int` for signed, whose encoders
truncate to the width two's complement exactly as `to_le_bytes` does).
`f32`/`f64` payloads are modelled as their IEEE-754 little-endian byte
patterns (`BVec 4` / `BVec 8`): the encoders only ever emit
`to_le_bytes` of the stored float, so the bit pattern is the faithful
observable.  Strings are their UTF-8 bytes (Rust `String::len` and
`as_bytes` are byte-based).  The enum `index` is a `usize`. -/
inductive DataValue where
  | BoolList (v : List Bool)
  | U8List (v : List (Fin 256))
  | U16List (v : List (Fin 65536))
  | U32List (v : List (Fin 4294967296))
  | U64List (v : List (Fin 18446744073709551616))
  | I8List (v : List Int)
  | I16List (v : List Int)
  | I32List (v : List Int)
  | I64List (v : List Int)
  | F32List (v : List (BVec 4))
  | F64List (v : List (BVec 8))
  | String (s : List Byte)
  | CString (max_length : Fin 65536) (string : List Byte)
  | Pubkey (p : BVec 32)
  | Sha256 (a : BVec 32)
  | Pda (program_id : BVec 32) (v : List DataValue)
  | Bump (program_id : BVec 32) (v : List DataValue)
  | PdaNoBump (program_id : BVec 32) (v : List DataValue)
  | Vector (v : List DataValue)
  | Struct (v : List DataValue)
  | Enum (index : Nat) (params : Option (List DataValue))
  | Some (v : DataValue)
  | None

/-- `vector_normalize` from `main.rs`: a vector whose single element is a
*numeric* scalar list of N scalars becomes N single-scalar elements; every
other shape (including a single `BoolList`, which has no arm in the Rust
`match`) is kept as written. -/
def vector_normalize : List DataValue → List DataValue
  | [DataValue.U8List xs] => xs.map (fun e => DataValue.U8List [e])
  | [DataValue.U16List xs] => xs.map (fun e => DataValue.U16List [e])
  | [DataValue.U32List xs] => xs.map (fun e => DataValue.U32List [e])
  | [DataValue.U64List xs] => xs.map (fun e => DataValue.U64List [e])
  | [DataValue.I8List xs] => xs.map (fun e => DataValue.I8List [e])
  | [DataValue.I16List xs] => xs.map (fun e => DataValue.I16List [e])
  | [DataValue.I32List xs] => xs.map (fun e => DataValue.I32List [e])
  | [DataValue.I64List xs] => xs.map (fun e => DataValue.I64List [e])
  | [DataValue.F32List xs] => xs.map (fun e => DataValue.F32List [e])
  | [DataValue.F64List xs] => xs.map (fun e => DataValue.F64List [e])
  | v => v

mutual

/-- Structural depth measure used to justify termination of the encoders
(the `Some`/`None`/`Enum` arms re-dispatch through freshly built values,
and `vector_normalize` rebuilds elements, so plain `sizeOf` does not
decrease). -/
def DataValue.depth : DataValue → Nat
  | .Pda _ v => 2 + DataValue.depthList v
  | .Bump _ v => 2 + DataValue.depthList v
  | .PdaNoBump _ v => 2 + DataValue.depthList v
  | .Vector v => 1 + DataValue.depthList v
  | .Struct v => 1 + DataValue.depthList v
  | .Enum _ (some p) => 2 + DataValue.depthList p
  | .Enum _ Option.none => 2
  | .Some v => 3 + DataValue.depth v
  | .None => 3
  | .Pubkey _ => 1
  | .Sha256 _ => 1
  | _ => 0

def DataValue.depthList : List DataValue → Nat
  | [] => 0
  | d :: r => max (DataValue.depth d) (DataValue.depthList r)

end

theorem depthList_eq_zero_of {l : List DataValue}
    (h : ∀ d ∈ l, d.depth = 0) : DataValue.depthList l = 0 := by
  induction l with
  | nil => rfl
  | cons d r ih =>
    show max d.depth (DataValue.depthList r) = 0
    rw [h d (by simp), ih (fun x hx => h x (by simp [hx]))]
    rfl

theorem vector_normalize_depthList (v : List DataValue) :
    DataValue.depthList (vector_normalize v) ≤ DataValue.depthList v := by
  unfold vector_normalize
  split
  all_goals first
    | exact le_refl _
    | · rw [depthList_eq_zero_of (by
          intro d hd
          simp only [List.mem_map] at hd
          obtain ⟨e, _, rfl⟩ := hd
          rfl)]
        exact Nat.zero_le _

theorem lexHelp {a b c d : Nat} (h : a < c ∨ (a = c ∧ b < d)) :
    Prod.Lex (· < ·) (· < ·) (a, b) (c, d) := by
  rcases h with h | ⟨rfl, h⟩
  · exact Prod.Lex.left _ _ h
  · exact Prod.Lex.right _ h

mutual

/-- `write_rust_bincode_value` from `main.rs` (`varint` selects the
varint-bincode or fixint-bincode dialect).  Scalar lists loop
`bincode_encode` over their elements; `u8`/`i8`/`bool` and byte arrays
(`Pubkey`/`Sha256`) are raw bytes under bincode in either dialect;
`usize` lengths are width-8 integers. -/
def write_rust_bincode_value (env : PdaEnv) (varint : Bool) :
    DataValue → Except EncErr (List Byte)
  | .BoolList v => .ok (v.map boolByte)
  | .U8List v => .ok v
  | .U16List v => .ok (v.flatMap (fun u => bincodeNat varint 2 u.val))
  | .U32List v => .ok (v.flatMap (fun u => bincodeNat varint 4 u.val))
  | .U64List v => .ok (v.flatMap (fun u => bincodeNat varint 8 u.val))
  | .I8List v => .ok (v.flatMap (fun i => intLeBytes 1 i))
  | .I16List v => .ok (v.flatMap (fun i => bincodeInt varint 2 i))
  | .I32List v => .ok (v.flatMap (fun i => bincodeInt varint 4 i))
  | .I64List v => .ok (v.flatMap (fun i => bincodeInt varint 8 i))
  | .F32List v => .ok (v.flatMap (·.val))
  | .F64List v => .ok (v.flatMap (·.val))
  | .String s => .ok (bincodeNat varint 8 s.length ++ s)
  | .CString max_length string =>
    if string.length ≤ max_length.val then
      .ok (string ++ List.replicate (max_length.val - string.length) 0)
    else .error (.err "c_string has length greater than max_length")
  | .Pubkey p => .ok p.val
  | .Sha256 a => .ok a.val
  | .Pda program_id v => do
    let seed ← write_rust_bincode_value env false (.Vector v)
    match find_pda env program_id seed with
    | some (pubkey, _) => .ok pubkey.val
    | none => .error (.panicked "called Option::unwrap on a None value")
  | .Bump program_id v => do
    let seed ← write_rust_bincode_value env false (.Vector v)
    match find_pda env program_id seed with
    | some (_, bump_seed) => .ok [bump_seed]
    | none => .error (.panicked "called Option::unwrap on a None value")
  | .PdaNoBump program_id v => do
    let seed ← write_rust_bincode_value env false (.Vector v)
    match try_find_pda env program_id seed none with
    | some pubkey => .ok pubkey.val
    | none => .error (.err "PDA could not be derived")
  | .Vector v => do
    let nv := vector_normalize v
    let elems ← write_rust_bincode_list env varint nv
    .ok (bincodeNat varint 8 nv.length ++ elems)
  | .Struct v => write_rust_bincode_list env varint v
  | .Enum index params =>
    if index > 4294967295 then
      .error (.err "enum index is greater than max supported by encoding")
    else
      match params with
      | some ps => do
        let rest ← write_rust_bincode_value env varint (.Struct ps)
        .ok (bincodeNat varint 4 index ++ rest)
      | none => .ok (bincodeNat varint 4 index)
  | .Some v => write_rust_bincode_value env varint (.Enum 1 (some [v]))
  | .None => write_rust_bincode_value env varint (.Enum 0 none)
termination_by dv => (dv.depth, 0)
decreasing_by
  all_goals simp_wf
  all_goals apply lexHelp
  all_goals try simp only [DataValue.depth, DataValue.depthList]
  all_goals try have hn := vector_normalize_depthList v
  all_goals omega

/-- Sequential encoding of a list of values (the element loops of the
`Vector`/`Struct` arms). -/
def write_rust_bincode_list (env : PdaEnv) (varint : Bool) :
    List DataValue → Except EncErr (List Byte)
  | [] => .ok []
  | d :: r => do
    let a ← write_rust_bincode_value env varint d
    let b ← write_rust_bincode_list env varint r
    .ok (a ++ b)
termination_by l => (DataValue.depthList l, l.length)
decreasing_by
  all_goals simp_wf
  all_goals apply lexHelp
  all_goals try simp only [DataValue.depth, DataValue.depthList]
  all_goals try have hn := vector_normalize_depthList v
  all_goals omega

end

mutual

/-- `write_rust_borsh_value` from `main.rs`: fixed little-endian scalars,
u32-length-prefixed strings and vectors (vector length over `u32::MAX`
rejected), concatenated structs, u8 enum discriminant (over 255
rejected). -/
def write_rust_borsh_value (env : PdaEnv) :
    DataValue → Except EncErr (List Byte)
  | .BoolList v => .ok (v.map boolByte)
  | .U8List v => .ok v
  | .U16List v => .ok (v.flatMap (fun u => leBytes 2 u.val))
  | .U32List v => .ok (v.flatMap (fun u => leBytes 4 u.val))
  | .U64List v => .ok (v.flatMap (fun u => leBytes 8 u.val))
  | .I8List v => .ok (v.flatMap (fun i => intLeBytes 1 i))
  | .I16List v => .ok (v.flatMap (fun i => intLeBytes 2 i))
  | .I32List v => .ok (v.flatMap (fun i => intLeBytes 4 i))
  | .I64List v => .ok (v.flatMap (fun i => intLeBytes 8 i))
  | .F32List v => .ok (v.flatMap (·.val))
  | .F64List v => .ok (v.flatMap (·.val))
  | .String s => .ok (leBytes 4 s.length ++ s)
  | .CString max_length string =>
    if string.length ≤ max_length.val then
      .ok (string ++ List.replicate (max_length.val - string.length) 0)
    else .error (.err "c_string has length greater than max_length")
  | .Pubkey p => .ok p.val
  | .Sha256 a => .ok a.val
  | .Pda program_id v => do
    let seed ← write_rust_borsh_value env (.Vector v)
    match find_pda env program_id seed with
    | some (pubkey, _) => .ok pubkey.val
    | none => .error (.panicked "called Option::unwrap on a None value")
  | .Bump program_id v => do
    let seed ← write_rust_borsh_value env (.Vector v)
    match find_pda env program_id seed with
    | some (_, bump_seed) => .ok [bump_seed]
    | none => .error (.panicked "called Option::unwrap on a None value")
  | .PdaNoBump program_id v => do
    let seed ← write_rust_borsh_value env (.Vector v)
    match try_find_pda env program_id seed none with
    | some pubkey => .ok pubkey.val
    | none => .error (.err "PDA could not be derived")
  | .Vector v =>
    let nv := vector_normalize v
    if nv.length > 4294967295 then
      .error (.err "vector length is greater than max supported by borsh encoding")
    else do
      let elems ← write_rust_borsh_list env nv
      .ok (leBytes 4 nv.length ++ elems)
  | .Struct v => write_rust_borsh_list env v
  | .Enum index params =>
    if h : index > 255 then
      .error (.err "enum index is greater than max of 255 supported by borsh encoding")
    else
      match params with
      | some ps => do
        let rest ← write_rust_borsh_value env (.Struct ps)
        .ok (⟨index, by omega⟩ :: rest)
      | none => .ok [⟨index, by omega⟩]
  | .Some v => write_rust_borsh_value env (.Enum 1 (some [v]))
  | .None => write_rust_borsh_value env (.Enum 0 none)
termination_by dv => (dv.depth, 0)
decreasing_by
  all_goals simp_wf
  all_goals apply lexHelp
  all_goals try simp only [DataValue.depth, DataValue.depthList]
  all_goals try have hn := vector_normalize_depthList v
  all_goals omega

/-- Sequential borsh encoding of a list of values. -/
def write_rust_borsh_list (env : PdaEnv) :
    List DataValue → Except EncErr (List Byte)
  | [] => .ok []
  | d :: r => do
    let a ← write_rust_borsh_value env d
    let b ← write_rust_borsh_list env r
    .ok (a ++ b)
termination_by l => (DataValue.depthList l, l.length)
decreasing_by
  all_goals simp_wf
  all_goals apply lexHelp
  all_goals try simp only [DataValue.depth, DataValue.depthList]
  all_goals omega

end

/-- `c_align` from `main.rs`: pad the buffer with zero bytes until its
length is a multiple of `alignment` (no-op when `should_align` is
false). -/
def c_align (alignment : Nat) (should_align : Bool) (into : List Byte) :
    List Byte :=
  if should_align then
    into ++ List.replicate ((alignment - into.length % alignment) % alignment) 0
  else into

mutual

/-- `c_alignment` from `main.rs`: the C natural alignment of a value. -/
def c_alignment : DataValue → Nat
  | .BoolList _ => 1
  | .U8List _ => 1
  | .U16List _ => 2
  | .U32List _ => 4
  | .U64List _ => 8
  | .I8List _ => 1
  | .I16List _ => 2
  | .I32List _ => 4
  | .I64List _ => 8
  | .F32List _ => 4
  | .F64List _ => 8
  | .String _ => 1
  | .CString _ _ => 1
  | .Pubkey _ => 1
  | .Sha256 _ => 1
  | .Pda _ _ => 1
  | .Bump _ _ => 1
  | .PdaNoBump _ _ => 1
  | .Vector _ => 1
  | .Struct v => c_max_alignment v
  | .Enum _ (some p) => c_max_alignment p
  | .Enum _ Option.none => 0
  | .Some v => c_alignment v
  | .None => 1

/-- `c_max_alignment` from `main.rs`: maximum alignment of a field list
(at least 1). -/
def c_max_alignment : List DataValue → Nat
  | [] => 1
  | d :: r => max (c_max_alignment r) (c_alignment d)

end

mutual

/-- `write_c_value` from `main.rs`: the C struct-layout encoder, appending
to the buffer `into` (alignment padding depends on the current buffer
length, so the accumulator is threaded exactly as the Rust
`&mut Vec<u8>` is).  Note the `String` arm *writes the raw UTF-8 bytes*
(no rejection), while the `Vector` arm rejects. -/
def write_c_value (env : PdaEnv) (align : Bool) :
    DataValue → List Byte → Except EncErr (List Byte)
  | .BoolList v, into => .ok (into ++ v.map boolByte)
  | .U8List v, into => .ok (into ++ v)
  | .U16List v, into =>
    .ok (v.foldl (fun acc u => c_align 2 align acc ++ leBytes 2 u.val) into)
  | .U32List v, into =>
    .ok (v.foldl (fun acc u => c_align 4 align acc ++ leBytes 4 u.val) into)
  | .U64List v, into =>
    .ok (v.foldl (fun acc u => c_align 8 align acc ++ leBytes 8 u.val) into)
  | .I8List v, into => .ok (into ++ v.flatMap (fun i => intLeBytes 1 i))
  | .I16List v, into =>
    .ok (v.foldl (fun acc i => c_align 2 align acc ++ intLeBytes 2 i) into)
  | .I32List v, into =>
    .ok (v.foldl (fun acc i => c_align 4 align acc ++ intLeBytes 4 i) into)
  | .I64List v, into =>
    .ok (v.foldl (fun acc i => c_align 8 align acc ++ intLeBytes 8 i) into)
  | .F32List v, into =>
    .ok (v.foldl (fun acc f => c_align 4 align acc ++ f.val) into)
  | .F64List v, into =>
    .ok (v.foldl (fun acc f => c_align 8 align acc ++ f.val) into)
  | .String s, into => .ok (into ++ s)
  | .CString max_length string, into =>
    if string.length ≤ max_length.val then
      .ok (into ++ string ++ List.replicate (max_length.val - string.length) 0)
    else .error (.err "c_string has length greater than max_length")
  | .Pubkey p, into => write_c_value env align (.U8List p.val) into
  | .Sha256 a, into => write_c_value env align (.U8List a.val) into
  | .Pda program_id v, into => do
    let seed ← write_c_list env false v []
    match find_pda env program_id seed with
    | some (pubkey, _) => write_c_value env false (.Pubkey pubkey) into
    | none => .error (.panicked "called Option::unwrap on a None value")
  | .Bump program_id v, into => do
    let seed ← write_c_list env false v []
    match find_pda env program_id seed with
    | some (_, bump_seed) => .ok (into ++ [bump_seed])
    | none => .error (.panicked "called Option::unwrap on a None value")
  | .PdaNoBump program_id v, into => do
    let seed ← write_c_list env false v []
    match try_find_pda env program_id seed none with
    | some pubkey => write_c_value env false (.Pubkey pubkey) into
    | none => .error (.err "PDA could not be derived")
  | .Vector _, _ => .error (.err "vector value cannot be used with c encoding")
  | .Struct v, into => do
    let alignment := c_max_alignment v
    let into ← write_c_list env align v (c_align alignment align into)
    .ok (c_align alignment align into)
  | .Enum index params, into =>
    if h : index > 255 then
      .error (.err "enum index is greater than max of 255 supported by c encoding")
    else
      match params with
      | some ps =>
        write_c_value env align (.Struct ps) (into ++ [⟨index, by omega⟩])
      | none => .ok (into ++ [⟨index, by omega⟩])
  | .Some v, into => write_c_value env align (.Enum 1 (some [v])) into
  | .None, into => write_c_value env align (.Enum 0 none) into
termination_by dv _ => (dv.depth, 1)
decreasing_by
  all_goals simp_wf
  all_goals apply lexHelp
  all_goals try simp only [DataValue.depth, DataValue.depthList]
  all_goals omega

/-- The seed/field loops of `write_c_value`: sequential encoding of a list
of values into the buffer. -/
def write_c_list (env : PdaEnv) (align : Bool) :
    List DataValue → List Byte → Except EncErr (List Byte)
  | [], into => .ok into
  | d :: r, into => do
    let into ← write_c_value env align d into
    write_c_list env align r into
termination_by l _ => (DataValue.depthList l, l.length + 2)
decreasing_by
  all_goals simp_wf
  all_goals apply lexHelp
  all_goals try simp only [DataValue.depth, DataValue.depthList]
  all_goals omega

end

/-- `write_data_value` from `main.rs`: dialect dispatch.  The bincode and
borsh encoders are written in produce-the-bytes style, so the buffer is
prepended here; the C encoder threads the buffer itself. -/
def write_data_value (env : PdaEnv) (data_value : DataValue)
    (encoding : Encoding) (into : List Byte) : Except EncErr (List Byte) :=
  match encoding with
  | .RustBincodeVarInt =>
    (write_rust_bincode_value env true data_value).map (into ++ ·)
  | .RustBincodeFixedInt =>
    (write_rust_bincode_value env false data_value).map (into ++ ·)
  | .RustBorsh => (write_rust_borsh_value env data_value).map (into ++ ·)
  | .C => write_c_value env true data_value into

/-- A concrete `PdaEnv` for witnesses: constant hash, and a curve test
that accepts everything (so every PDA candidate is rejected). -/
def allCurveEnv : PdaEnv :=
  { sha256 := fun _ => EMPTY_RECENT_BLOCKHASH
    bytes_are_curve_point := fun _ => true }

theorem finValMk (n a : Nat) (h : a < n) : (⟨a, h⟩ : Fin n).val = a := rfl

/-- The data value `enum 2 [ u64 12131001000 ]` from the encode example. -/
def transferEnum : DataValue :=
  .Enum 2 (some [.U64List [⟨12131001000, by norm_num⟩]])

theorem transferEnum_varint_eval (env : PdaEnv) :
    write_rust_bincode_value env true transferEnum =
      .ok [0x02, 0xfd, 0xa8, 0x62, 0x10, 0xd3, 0x02, 0x00, 0x00, 0x00] := by
  simp [transferEnum, write_rust_bincode_value, write_rust_bincode_list,
    bincodeNat, bincodeVarint, leBytes, finValMk]
  decide

theorem transferEnum_fixint_eval (env : PdaEnv) :
    write_rust_bincode_value env false transferEnum =
      .ok [0x02, 0x00, 0x00, 0x00, 0xa8, 0x62, 0x10, 0xd3, 0x02, 0x00, 0x00,
        0x00] := by
  simp [transferEnum, write_rust_bincode_value, write_rust_bincode_list,
    bincodeNat, bincodeVarint, leBytes, finValMk]
  decide

/-- Claim C3 (amended): under the varint-bincode dialect
`enum 2 [ u64 12131001000 ]` encodes to the *ten* bytes
`02 fd a8 62 10 d3 02 00 00 00` — a single-byte varint discriminant, then
bincode's `0xFD` eight-byte marker and the little-endian `u64`; the
twelve-byte layout with a 4-byte little-endian `u32` discriminant belongs
to the fixint dialect, and the little-endian bytes of 12131001000 are
`a8 62 10 d3 02 00 00 00` (not `a8 84 bb d3 02 00 00 00`, which is
12142216360). -/
theorem transferEnum_encoding (env : PdaEnv) (into : List Byte) :
    write_data_value env transferEnum Encoding.RustBincodeVarInt [] =
      .ok [0x02, 0xfd, 0xa8, 0x62, 0x10, 0xd3, 0x02, 0x00, 0x00, 0x00] ∧
    write_data_value env transferEnum Encoding.RustBincodeFixedInt [] =
      .ok [0x02, 0x00, 0x00, 0x00, 0xa8, 0x62, 0x10, 0xd3, 0x02, 0x00, 0x00,
        0x00] ∧
    write_data_value env transferEnum Encoding.RustBincodeVarInt into =
      .ok (into ++ [0x02, 0xfd, 0xa8, 0x62, 0x10, 0xd3, 0x02, 0x00, 0x00, 0x00]) := by
  refine ⟨?_, ?_, ?_⟩
  · show (write_rust_bincode_value env true transferEnum).map _ = _
    rw [transferEnum_varint_eval]
    rfl
  · show (write_rust_bincode_value env false transferEnum).map _ = _
    rw [transferEnum_fixint_eval]
    rfl
  · show (write_rust_bincode_value env true transferEnum).map _ = _
    rw [transferEnum_varint_eval]
    rfl

/-- Counterexample to C3 as stated: under the varint dialect the encoded
bytes are not the claimed twelve bytes
`02 00 00 00 a8 84 bb d3 02 00 00 00` (in fact they differ from them
under the fixint dialect as well, since the claimed little-endian bytes
decode to 12142216360, not 12131001000). -/
theorem transferEnum_varint_not_claimed_bytes :
    write_data_value allCurveEnv transferEnum Encoding.RustBincodeVarInt [] ≠
      .ok [0x02, 0x00, 0x00, 0x00, 0xa8, 0x84, 0xbb, 0xd3, 0x02, 0x00, 0x00,
        0x00] ∧
    write_data_value allCurveEnv transferEnum Encoding.RustBincodeFixedInt [] ≠
      .ok [0x02, 0x00, 0x00, 0x00, 0xa8, 0x84, 0xbb, 0xd3, 0x02, 0x00, 0x00,
        0x00] := by
  constructor
  · show (write_rust_bincode_value allCurveEnv true transferEnum).map _ ≠ _
    rw [transferEnum_varint_eval]
    decide
  · show (write_rust_bincode_value allCurveEnv false transferEnum).map _ ≠ _
    rw [transferEnum_fixint_eval]
    decide

/-- Claim C4 (code bug): under the C dialect, a `Vector` value is rejected
with exactly "vector value cannot be used with c encoding" and emits no
bytes, but a `String` value is *accepted*: `write_c_value` writes its raw
UTF-8 bytes into the buffer, never producing the documented
"string value cannot be used with c encoding" error. -/
theorem c_encoding_string_accepted_vector_rejected (env : PdaEnv)
    (s : List Byte) (dv : List DataValue) (into : List Byte) :
    write_c_value env true (.String s) into = .ok (into ++ s) ∧
    write_c_value env true (.Vector dv) into =
      .error (.err "vector value cannot be used with c encoding") := by
  constructor
  · simp [write_c_value]
  · simp [write_c_value]

/-- Witness for C4's theorem at concrete inputs: the one-byte string "a"
is happily written by the C encoder. -/
theorem c_encoding_string_accepted_vector_rejected_witness :
    write_c_value allCurveEnv true (.String [97]) [] = .ok [97] ∧
    write_c_value allCurveEnv true (.Vector []) [] =
      .error (.err "vector value cannot be used with c encoding") :=
  c_encoding_string_accepted_vector_rejected allCurveEnv [97] [] []

/-- Claim C5 (code bug): whenever the descending bump search fails
(`find_pda` returns `none`), encoding a `pda` or `bump` value does *not*
return an error result: the bincode and C encoders call `.unwrap()` on the
`None` and panic.  (Only the `pda_nobump` arm returns a proper error.) -/
theorem pda_bump_encode_panics (env : PdaEnv) (pid : BVec 32)
    (v : List DataValue) (varint : Bool) (seedB seedC : List Byte)
    (hseedB : write_rust_bincode_value env false (.Vector v) = .ok seedB)
    (hnoneB : find_pda env pid seedB = none)
    (hseedC : write_c_list env false v [] = .ok seedC)
    (hnoneC : find_pda env pid seedC = none) (into : List Byte) :
    write_rust_bincode_value env varint (.Pda pid v) =
      .error (.panicked "called Option::unwrap on a None value") ∧
    write_rust_bincode_value env varint (.Bump pid v) =
      .error (.panicked "called Option::unwrap on a None value") ∧
    write_c_value env true (.Pda pid v) into =
      .error (.panicked "called Option::unwrap on a None value") ∧
    write_c_value env true (.Bump pid v) into =
      .error (.panicked "called Option::unwrap on a None value") := by
  refine ⟨?_, ?_, ?_, ?_⟩
  · rw [write_rust_bincode_value, hseedB]
    simp only [exceptOkBind]
    rw [hnoneB]
  · rw [write_rust_bincode_value, hseedB]
    simp only [exceptOkBind]
    rw [hnoneB]
  · rw [write_c_value, hseedC]
    simp only [exceptOkBind]
    rw [hnoneC]
  · rw [write_c_value, hseedC]
    simp only [exceptOkBind]
    rw [hnoneC]

theorem empty_vector_bincode_seed :
    write_rust_bincode_value allCurveEnv false (.Vector []) =
      .ok [0, 0, 0, 0, 0, 0, 0, 0] := by
  simp [write_rust_bincode_value, write_rust_bincode_list, vector_normalize,
    bincodeNat, leBytes]
  decide

/-- Witness for C5 under the abstract curve test that rejects every
candidate (every 32-byte digest "is a curve point"), where the bump
search exhausts 255..0 and `find_pda` returns `none`. -/
theorem pda_bump_encode_panics_witness :
    write_rust_bincode_value allCurveEnv true (.Pda pkW0 []) =
      .error (.panicked "called Option::unwrap on a None value") ∧
    write_rust_bincode_value allCurveEnv true (.Bump pkW0 []) =
      .error (.panicked "called Option::unwrap on a None value") ∧
    write_c_value allCurveEnv true (.Pda pkW0 []) [] =
      .error (.panicked "called Option::unwrap on a None value") ∧
    write_c_value allCurveEnv true (.Bump pkW0 []) [] =
      .error (.panicked "called Option::unwrap on a None value") :=
  pda_bump_encode_panics allCurveEnv pkW0 [] true [0, 0, 0, 0, 0, 0, 0, 0] []
    empty_vector_bincode_seed (by decide) (by simp [write_c_list]) (by decide) []

theorem borsh_list_u8_singletons (env : PdaEnv) (xs : List (Fin 256)) :
    write_rust_borsh_list env (xs.map (fun e => DataValue.U8List [e])) =
      .ok xs := by
  induction xs with
  | nil =>
    simp only [List.map_nil]
    rw [write_rust_borsh_list]
  | cons x xs ih =>
    rw [List.map_cons, write_rust_borsh_list, write_rust_borsh_value]
    simp only [exceptOkBind]
    rw [ih]
    rfl

theorem bincode_list_u8_singletons (env : PdaEnv) (varint : Bool)
    (xs : List (Fin 256)) :
    write_rust_bincode_list env varint (xs.map (fun e => DataValue.U8List [e])) =
      .ok xs := by
  induction xs with
  | nil =>
    simp only [List.map_nil]
    rw [write_rust_bincode_list]
  | cons x xs ih =>
    rw [List.map_cons, write_rust_bincode_list, write_rust_bincode_value]
    simp only [exceptOkBind]
    rw [ih]
    rfl

/-- Claim C9 (amended): a vector whose single element is a *numeric*
scalar list of N scalars (u8–u64, i8–i64, f32, f64 — but *not* bool,
which has no arm in `vector_normalize`) is encoded as an N-element vector
of one scalar each; vectors of any other shape — a single `BoolList`, or
length ≠ 1 — and struct values keep their elements exactly as written. -/
theorem vector_normalization_behavior (env : PdaEnv) (xs : List (Fin 256))
    (xs16 : List (Fin 65536)) (xs32 : List (Fin 4294967296))
    (xs64 : List (Fin 18446744073709551616)) (i8s i16s i32s i64s : List Int)
    (f32s : List (BVec 4)) (f64s : List (BVec 8)) (bs : List Bool)
    (v : List DataValue) :
    (vector_normalize [DataValue.U8List xs] =
        xs.map (fun e => DataValue.U8List [e]) ∧
      vector_normalize [DataValue.U16List xs16] =
        xs16.map (fun e => DataValue.U16List [e]) ∧
      vector_normalize [DataValue.U32List xs32] =
        xs32.map (fun e => DataValue.U32List [e]) ∧
      vector_normalize [DataValue.U64List xs64] =
        xs64.map (fun e => DataValue.U64List [e]) ∧
      vector_normalize [DataValue.I8List i8s] =
        i8s.map (fun e => DataValue.I8List [e]) ∧
      vector_normalize [DataValue.I16List i16s] =
        i16s.map (fun e => DataValue.I16List [e]) ∧
      vector_normalize [DataValue.I32List i32s] =
        i32s.map (fun e => DataValue.I32List [e]) ∧
      vector_normalize [DataValue.I64List i64s] =
        i64s.map (fun e => DataValue.I64List [e]) ∧
      vector_normalize [DataValue.F32List f32s] =
        f32s.map (fun e => DataValue.F32List [e]) ∧
      vector_normalize [DataValue.F64List f64s] =
        f64s.map (fun e => DataValue.F64List [e])) ∧
    vector_normalize [DataValue.BoolList bs] = [DataValue.BoolList bs] ∧
    (v.length ≠ 1 → vector_normalize v = v) ∧
    (xs.length ≤ 4294967295 →
      write_rust_borsh_value env (.Vector [.U8List xs]) =
        .ok (leBytes 4 xs.length ++ xs)) ∧
    write_rust_bincode_value env true (.Vector [.U8List xs]) =
      .ok (bincodeVarint xs.length ++ xs) ∧
    write_rust_bincode_value env false (.Vector [.U8List xs]) =
      .ok (leBytes 8 xs.length ++ xs) ∧
    write_rust_borsh_value env (.Vector [.BoolList bs]) =
      .ok (leBytes 4 1 ++ bs.map boolByte) ∧
    write_rust_borsh_value env (.Struct [.U8List xs]) = .ok xs := by
  refine ⟨⟨rfl, rfl, rfl, rfl, rfl, rfl, rfl, rfl, rfl, rfl⟩, rfl, ?_, ?_, ?_,
    ?_, ?_, ?_⟩
  · intro h
    unfold vector_normalize
    split
    all_goals first
      | rfl
      | (exfalso; exact h (by rfl))
  · intro h
    rw [write_rust_borsh_value]
    simp only [vector_normalize, List.length_map]
    rw [if_neg (by omega), borsh_list_u8_singletons]
    simp [exceptOkBind]
  · rw [write_rust_bincode_value]
    simp only [vector_normalize, List.length_map]
    rw [bincode_list_u8_singletons]
    simp [bincodeNat, exceptOkBind]
  · rw [write_rust_bincode_value]
    simp only [vector_normalize, List.length_map]
    rw [bincode_list_u8_singletons]
    simp [bincodeNat, exceptOkBind]
  · rw [write_rust_borsh_value]
    simp only [vector_normalize]
    rw [if_neg (by simp)]
    rw [write_rust_borsh_list, write_rust_borsh_value, write_rust_borsh_list]
    simp [exceptOkBind]
  · rw [write_rust_borsh_value, write_rust_borsh_list, write_rust_borsh_value,
      write_rust_borsh_list]
    simp [exceptOkBind]

/-- Counterexample to C9 as stated: a vector whose single element is a
bool list is *not* normalized — `vector_normalize` has no `BoolList` arm —
so `vector [ bool true true ]` borsh-encodes as a 1-element vector
(`01 00 00 00 01 01`), not the 2-element vector (`02 00 00 00 01 01`) the
claim requires. -/
theorem bool_vector_not_normalized :
    write_rust_borsh_value allCurveEnv (.Vector [.BoolList [true, true]]) =
      .ok [1, 0, 0, 0, 1, 1] ∧
    (Except.ok [1, 0, 0, 0, 1, 1] : Except EncErr (List Byte)) ≠
      .ok [2, 0, 0, 0, 1, 1] := by
  constructor
  · rw [write_rust_borsh_value]
    simp only [vector_normalize]
    rw [if_neg (by simp)]
    rw [write_rust_borsh_list, write_rust_borsh_value, write_rust_borsh_list]
    simp [exceptOkBind, leBytes, boolByte]
  · decide

/-- Witness for C9's amended theorem at concrete inputs. -/
theorem vector_normalization_behavior_witness :
    vector_normalize [DataValue.U8List [3, 4]] =
      [DataValue.U8List [3], DataValue.U8List [4]] ∧
    vector_normalize [DataValue.U8List [3], DataValue.U8List [4]] =
      [DataValue.U8List [3], DataValue.U8List [4]] ∧
    write_rust_borsh_value allCurveEnv (.Vector [.U8List [3, 4]]) =
      .ok (leBytes 4 2 ++ [3, 4]) :=
  ⟨(vector_normalization_behavior allCurveEnv [3, 4] [] [] [] [] [] [] [] [] []
      [] [DataValue.U8List [3], DataValue.U8List [4]]).1.1,
    (vector_normalization_behavior allCurveEnv [3, 4] [] [] [] [] [] [] [] [] []
      [] [DataValue.U8List [3], DataValue.U8List [4]]).2.2.1 (by decide),
    (vector_normalization_behavior allCurveEnv [3, 4] [] [] [] [] [] [] [] [] []
      [] [DataValue.U8List [3], DataValue.U8List [4]]).2.2.2.1 (by decide)⟩
